import Mathlib

/-!
Verification of the M3U-to-strm conversion engine (`src/convert.js`).

Strings are modelled as `List Char` (`Str`).  Filesystem paths are modelled
as lists of path segments (`FPath`); this is faithful because every segment
the program produces goes through `sanitizeSegment` (which removes `/` and
`\`) or is a fixed literal, so joining with `/` and splitting again is the
identity.  Node's `path.join` normalization of `.` and `..` segments is
modelled explicitly by `normSegs`.  The output-root directory tree is
modelled as an inductive `FTree`; filesystem errors (mkdir/write failures)
are modelled by `Option`.

Character predicates follow the JavaScript regular-expression classes:
`\d` and `\w` are ASCII-only in JS and are modelled exactly; `\s` and
`String.trim` use the same JS whitespace set, modelled by `jsWhitespace`
(ASCII whitespace plus the Unicode space separators JS includes).
JS `toLowerCase` agrees with `Char.toLower` on ASCII, which is the only
case-mapping the classifier's inputs exercise (`tvg-type` values).
-/

abbrev Str := List Char

/-- Shorthand turning a Lean string literal into the `List Char` model. -/
def lit (s : String) : Str := s.data

/-- JS `\w` character class: ASCII letters, digits and underscore. -/
def isWordChar (c : Char) : Bool :=
  (('A' ≤ c ∧ c ≤ 'Z') ∨ ('a' ≤ c ∧ c ≤ 'z') ∨ ('0' ≤ c ∧ c ≤ '9') ∨ c = '_')

/-- JS `\s` / `String.trim` whitespace set (WhiteSpace and LineTerminator),
given by code point. -/
def jsWhitespace (c : Char) : Bool :=
  c.toNat = 0x20 ∨ c.toNat = 0x9 ∨ c.toNat = 0xa ∨ c.toNat = 0xb ∨
  c.toNat = 0xc ∨ c.toNat = 0xd ∨ c.toNat = 0xa0 ∨ c.toNat = 0x1680 ∨
  (0x2000 ≤ c.toNat ∧ c.toNat ≤ 0x200a) ∨ c.toNat = 0x2028 ∨
  c.toNat = 0x2029 ∨ c.toNat = 0x202f ∨ c.toNat = 0x205f ∨
  c.toNat = 0x3000 ∨ c.toNat = 0xfeff

/-- Characters replaced by a space in `sanitizeSegment`:
the class `[<>:"/\\|?*]` from `convert.js` line 21. -/
def badChar (c : Char) : Bool :=
  c = '<' ∨ c = '>' ∨ c = ':' ∨ c = '"' ∨ c = '/' ∨ c = '\\' ∨
  c = '|' ∨ c = '?' ∨ c = '*'

/-- Control characters `[\u0000-\u001F]` replaced by a space
(`convert.js` line 22). -/
def ctrlChar (c : Char) : Bool := c.toNat ≤ 0x1f

/-- JS `String.replace(/[..]/g, ' ')` for a character class: map each
matching character to a space. -/
def replaceClass (p : Char → Bool) (s : Str) : Str :=
  s.map (fun c => if p c then ' ' else c)

/-- JS `String.replace(/\s+/g, ' ')`: each maximal run of whitespace
becomes a single space.  The boolean argument records whether the
previous character was part of a whitespace run. -/
def collapseWSAux : Bool → Str → Str
  | _, [] => []
  | prevWS, c :: rest =>
    if jsWhitespace c then
      (if prevWS then collapseWSAux true rest else ' ' :: collapseWSAux true rest)
    else c :: collapseWSAux false rest

def collapseWS (s : Str) : Str := collapseWSAux false s

/-- JS `String.trim`: drop leading and trailing whitespace. -/
def trimJS (s : Str) : Str :=
  ((s.dropWhile jsWhitespace).reverse.dropWhile jsWhitespace).reverse

/-- The path sanitizer from `convert.js` lines 19-25: replace forbidden
filesystem characters with spaces, replace control characters with
spaces, collapse whitespace runs, trim. -/
def sanitizeSegment (s : Str) : Str :=
  trimJS (collapseWS (replaceClass ctrlChar (replaceClass badChar s)))

/-! Idempotence of the sanitizer (claim C9).  We characterize the image of
`sanitizeSegment`: no bad or control character occurs, every whitespace
character is exactly a space, no two spaces are adjacent, and the string
neither starts nor ends with whitespace.  Each pipeline stage is the
identity on such strings. -/

/-- Every character of `s` is clean (not bad, not control) and every
whitespace character is a plain space. -/
def cleanChars (s : Str) : Prop :=
  ∀ c ∈ s, badChar c = false ∧ ctrlChar c = false ∧ (jsWhitespace c → c = ' ')

/-- No two adjacent whitespace characters. -/
def noDoubleWS : Str → Prop
  | [] => True
  | [_] => True
  | a :: b :: rest => ¬(jsWhitespace a ∧ jsWhitespace b) ∧ noDoubleWS (b :: rest)

/-! Attribute extraction (`parseExtinf`, `convert.js` lines 27-40). -/

/-- JS `toLowerCase`, ASCII case mapping. -/
def toLowerStr (s : Str) : Str := s.map Char.toLower

/-- JS string truthiness fallback `a || b` for strings. -/
def jsOr (a b : Str) : Str := if a = [] then b else a

/-- Characters allowed in an attribute key: the regex class `[\w-]`. -/
def isAttrKeyChar (c : Char) : Bool := isWordChar c || c == '-'

/-- Scan of the global regex `([\w-]+)="([^"]*)"` over the attribute part,
returning matches in order.  Mirrors the JS engine: at each position a
match requires a maximal run of key characters followed by `="`, then the
value runs to the next quote; on failure the scan advances one character. -/
def scanAttrsGo : Nat → Str → List (Str × Str)
  | 0, _ => []
  | _ + 1, [] => []
  | fuel + 1, c :: rest =>
    if isAttrKeyChar c then
      match rest.dropWhile isAttrKeyChar with
      | '=' :: '"' :: tail =>
        match tail.dropWhile (· != '"') with
        | '"' :: tail2 =>
          (c :: rest.takeWhile isAttrKeyChar, tail.takeWhile (· != '"')) ::
            scanAttrsGo fuel tail2
        | _ => scanAttrsGo fuel rest
      | _ => scanAttrsGo fuel rest
    else scanAttrsGo fuel rest

def scanAttrs (s : Str) : List (Str × Str) := scanAttrsGo s.length s

/-- Final attribute map: later duplicate keys overwrite earlier ones
(JS object assignment), so lookup returns the last match. -/
def getAttr (attrs : List (Str × Str)) (k : Str) : Option Str :=
  (attrs.reverse.find? (fun p => p.1 == k)).map (·.2)

/-- JS `attrs[k] || ''`. -/
def getAttrD (attrs : List (Str × Str)) (k : Str) : Str :=
  (getAttr attrs k).getD []

/-- Split a metadata line at its last comma (`line.lastIndexOf(',')`),
returning the part before and the part after. -/
def splitAtLastComma (s : Str) : Option (Str × Str) :=
  let r := s.reverse
  match r.dropWhile (· != ',') with
  | ',' :: beforeRev => some (beforeRev.reverse, (r.takeWhile (· != ',')).reverse)
  | _ => none

/-- The attribute extractor from `convert.js` lines 27-40: split at the
last comma, the display name is the trimmed part after, the attributes are
scanned from the part before (the whole line when no comma exists). -/
def parseExtinf (line : Str) : List (Str × Str) × Str :=
  match splitAtLastComma line with
  | some (before, after) => (scanAttrs before, trimJS after)
  | none => (scanAttrs line, [])

/-! Year and season/episode parsing (`convert.js` lines 42-63). -/

/-- Decimal digits of a natural number. -/
def natToStr (n : Nat) : Str := (Nat.repr n).data

/-- JS `parseInt` on a string of decimal digits. -/
def digitsToNat (s : Str) : Nat := s.foldl (fun a c => a * 10 + (c.toNat - 48)) 0

/-- JS `String.padStart(2, '0')`. -/
def pad2 (s : Str) : Str :=
  if s.length < 2 then List.replicate (2 - s.length) '0' ++ s else s

/-- JS `String(parseInt(d, 10)).padStart(2, '0')`. -/
def parseIntPad2 (d : Str) : Str := pad2 (natToStr (digitsToNat d))

/-- The regex `/\((\d{4})\)\s*$/` of `parseYearFromTitle`
(`convert.js` lines 42-45): a trailing `(YYYY)` possibly followed by
whitespace; returns the captured digits. -/
def parseYearFromTitle (s : Str) : Option Str :=
  match s.reverse.dropWhile jsWhitespace with
  | ')' :: x1 :: x2 :: x3 :: x4 :: '(' :: _ =>
    if x1.isDigit && x2.isDigit && x3.isDigit && x4.isDigit then
      some [x4, x3, x2, x1]
    else none
  | _ => none

/-- Test of the regex `/\(\d{4}\)\s*$/` used for the group-title year
marker (`convert.js` line 55). -/
def endsYearParen (s : Str) : Bool :=
  (parseYearFromTitle s).isSome

/-- The regex `/(\d{4})\b/` over the group label (`convert.js` line 93):
the first position with four digits followed by a word boundary. -/
def findYear4 : Str → Option Str
  | [] => none
  | a :: rest =>
    match rest with
    | b :: c :: d :: tail =>
      if a.isDigit && b.isDigit && c.isDigit && d.isDigit &&
          (match tail with | [] => true | f :: _ => !isWordChar f) then
        some [a, b, c, d]
      else findYear4 rest
    | _ => none

/-- Attempt to match `S(\d{1,2})<gap>E(\d{1,eMax})\b` at the start of `s`
(the leading word boundary is the caller's responsibility).  `needGap`
demands at least one whitespace character between the digits and `E`
(the `\s+` variant); otherwise the gap is `\s*`.  Returns the two capture
groups and the remainder after the match.  Digit runs longer than the
bound make every backtracking attempt fail in JS (the following character
remains a digit, killing the boundary or the `E`), so only the maximal
run is considered. -/
def matchSEHere (eMax : Nat) (needGap : Bool) (s : Str) : Option (Str × Str × Str) :=
  match s with
  | [] => none
  | c :: rest =>
    if c = 'S' ∨ c = 's' then
      let sd := rest.takeWhile Char.isDigit
      let r1 := rest.dropWhile Char.isDigit
      if sd.length = 0 ∨ 2 < sd.length then none
      else
        let gap := r1.takeWhile jsWhitespace
        let r2 := r1.dropWhile jsWhitespace
        if needGap = true ∧ gap.length = 0 then none
        else
          match r2 with
          | [] => none
          | e :: r3 =>
            if e = 'E' ∨ e = 'e' then
              let ed := r3.takeWhile Char.isDigit
              let r4 := r3.dropWhile Char.isDigit
              if ed.length = 0 ∨ eMax < ed.length then none
              else
                match r4 with
                | [] => some (sd, ed, [])
                | d :: _ => if isWordChar d then none else some (sd, ed, r4)
            else none
    else none

/-- Leftmost search for the season/episode marker with a word boundary
before the `S` (`prev` is the character before the current position).
Returns (text before the match, season digits, episode digits, text after
the match). -/
def searchSE (eMax : Nat) (needGap : Bool) : Option Char → Str → Option (Str × Str × Str × Str)
  | _, [] => none
  | prev, c :: rest =>
    let boundaryOk : Bool := match prev with
      | none => true
      | some p => !isWordChar p
    match (if boundaryOk then matchSEHere eMax needGap (c :: rest) else none) with
    | some (sd, ed, after) => some ([], sd, ed, after)
    | none =>
      match searchSE eMax needGap (some c) rest with
      | some (b, sd, ed, a) => some (c :: b, sd, ed, a)
      | none => none

/-- The episode-marker lookup of `parseShowTitleAndEpisode`
(`convert.js` lines 48-51): first `/\bS(\d{1,2})\s*E(\d{1,2})\b/i`, then
`/\bS(\d{1,2})\s+E(\d{1,3})\b/i`; returns the raw capture groups. -/
def findSEm (dn : Str) : Option (Str × Str) :=
  match searchSE 2 false none dn with
  | some (_, sd, ed, _) => some (sd, ed)
  | none =>
    match searchSE 3 true none dn with
    | some (_, sd, ed, _) => some (sd, ed)
    | none => none

/-- JS `displayName.replace(/\bS\d{1,2}\s*E\d{1,2}\b/i, '')`
(`convert.js` line 58): remove the first match of the first pattern. -/
def removeSE1 (dn : Str) : Str :=
  match searchSE 2 false none dn with
  | some (b, _, _, a) => b ++ a
  | none => dn

structure ShowParse where
  showBase : Str
  season : Option Str
  episode : Option Str
  kodiEpisodeTag : Option Str
deriving DecidableEq

/-- The show/season/episode parser (`convert.js` lines 47-63). -/
def parseShowTitleAndEpisode (displayName fallbackGroupTitle : Str) : ShowParse :=
  let m := findSEm displayName
  let season := m.map (fun p => parseIntPad2 p.1)
  let episode := m.map (fun p => parseIntPad2 p.2)
  let baseFromGroup : Option Str :=
    if fallbackGroupTitle ≠ [] ∧ endsYearParen fallbackGroupTitle = true then
      some fallbackGroupTitle
    else none
  let showBase :=
    match baseFromGroup with
    | some g => g
    | none => trimJS (removeSE1 displayName)
  let kodiEpisodeTag :=
    match season, episode with
    | some s, some e => some (lit "S" ++ s ++ lit "E" ++ e)
    | _, _ => none
  ⟨showBase, season, episode, kodiEpisodeTag⟩

/-! Path normalization: Node `path.join` joins its arguments with `/` and
normalizes the result, resolving `.` and `..` segments.  Paths are
modelled as segment lists. -/

abbrev FPath := List Str

/-- Node `path.posix.join` on single segments: drop empty and `.`
segments; `..` pops the previous segment when one exists (and is not
itself a leading `..`). -/
def normSegs (segs : List Str) : FPath :=
  segs.foldl
    (fun acc s =>
      if s = [] ∨ s = lit "." then acc
      else if s = lit ".." then
        match acc.getLast? with
        | none => acc ++ [s]
        | some t => if t = lit ".." then acc ++ [s] else acc.dropLast
      else acc ++ [s])
    []

structure RunOptions where
  includeLive : Bool
  overwrite : Bool
  dryRun : Bool
  moviesByYear : Bool
  deleteMissing : Bool
  logEnabled : Bool
  defaultType : Option Str
deriving DecidableEq

/-- The entry classifier (`convert.js` lines 65-110), a pure function of
the parsed attributes, the display name and the options, returning the
relative output path (as normalized segments) or `none` for rejection. -/
def decideOutputForEntry (attrs : List (Str × Str)) (displayName : Str)
    (opts : RunOptions) : Option FPath :=
  let typ := jsOr (toLowerStr (getAttrD attrs (lit "tvg-type")))
    (toLowerStr ((opts.defaultType).getD []))
  let groupTitle := jsOr (getAttrD attrs (lit "group-title")) (lit "Unknown")
  if typ = lit "tvshows" then
    let pr := parseShowTitleAndEpisode displayName groupTitle
    if pr.kodiEpisodeTag = none ∧ getAttrD attrs (lit "tvg-name") ≠ [] then
      let showFolder := sanitizeSegment (jsOr (jsOr pr.showBase groupTitle) (lit "Unknown Show"))
      let fileName := sanitizeSegment (getAttrD attrs (lit "tvg-name")) ++ lit ".strm"
      some (normSegs [lit "TV Shows", showFolder, fileName])
    else if pr.showBase = [] ∨ pr.season = none ∨ pr.kodiEpisodeTag = none then none
    else
      let showFolder := sanitizeSegment pr.showBase
      let seasonFolder := lit "Season " ++ (pr.season.getD [])
      let fileName :=
        sanitizeSegment (pr.showBase ++ lit " " ++ (pr.kodiEpisodeTag.getD [])) ++ lit ".strm"
      some (normSegs [lit "TV Shows", showFolder, seasonFolder, fileName])
  else if typ = lit "movie" ∨ typ = lit "movies" then
    let year :=
      match parseYearFromTitle displayName with
      | some y => y
      | none =>
        match findYear4 groupTitle with
        | some y => y
        | none => lit "Unknown"
    let movieName := jsOr (sanitizeSegment displayName)
      (sanitizeSegment (jsOr (getAttrD attrs (lit "tvg-name")) (lit "Unknown Movie")))
    if opts.moviesByYear then
      some (normSegs [lit "Movies", year, movieName ++ lit ".strm"])
    else
      some (normSegs [lit "Movies", movieName ++ lit ".strm"])
  else if typ = lit "live" then
    if opts.includeLive = false then none
    else
      let channel := jsOr (sanitizeSegment displayName)
        (sanitizeSegment (jsOr (getAttrD attrs (lit "tvg-name")) (lit "Unknown Channel")))
      let group := sanitizeSegment groupTitle
      some (normSegs [lit "Live", jsOr group (lit "Live"), channel ++ lit ".strm"])
  else none

/-! Filesystem model.  The output root is a tree of named entries; a name
maps to a file (with content) or a directory.  `FTree`/`Forest` are
mutually inductive so that every operation is plain structural recursion.
`Option` models thrown filesystem errors (ENOTDIR / EEXIST / EISDIR /
ENOENT). -/

mutual
inductive FTree where
  | file : Str → FTree
  | dir : Forest → FTree

inductive Forest where
  | nil : Forest
  | cons : Str → FTree → Forest → Forest
end

/-- Build a forest from a list of named entries. -/
def forestOf : List (Str × FTree) → Forest
  | [] => Forest.nil
  | (n, t) :: rest => Forest.cons n t (forestOf rest)

/-- Child of a directory listing by name. -/
def childNamed : Forest → Str → Option FTree
  | Forest.nil, _ => none
  | Forest.cons m t rest, n => if m == n then some t else childNamed rest n

/-- Replace the named child, or append it. -/
def setChild : Forest → Str → FTree → Forest
  | Forest.nil, n, t => Forest.cons n t Forest.nil
  | Forest.cons m u rest, n, t =>
    if m == n then Forest.cons m t rest else Forest.cons m u (setChild rest n t)

def Forest.isNil : Forest → Bool
  | Forest.nil => true
  | Forest.cons _ _ _ => false

/-- Node at a path, if any. -/
def lookupT : FTree → FPath → Option FTree
  | t, [] => some t
  | FTree.file _, _ :: _ => none
  | FTree.dir cs, n :: rest =>
    match childNamed cs n with
    | some t => lookupT t rest
    | none => none

/-- Content of the file at a path, if the node exists and is a file. -/
def lookupFile (t : FTree) (p : FPath) : Option Str :=
  match lookupT t p with
  | some (FTree.file c) => some c
  | _ => none

/-- Whether the node at a path is a directory. -/
def isDirAt (t : FTree) (p : FPath) : Bool :=
  match lookupT t p with
  | some (FTree.dir _) => true
  | _ => false

/-- `fs.existsSync`. -/
def existsT (t : FTree) (p : FPath) : Bool := (lookupT t p).isSome

/-- `fs.mkdirSync(dir, { recursive: true })`: create every missing
directory along the path; fails when a path component exists as a file. -/
def mkdirp : FTree → FPath → Option FTree
  | FTree.dir cs, [] => some (FTree.dir cs)
  | FTree.file _, _ => none
  | FTree.dir cs, n :: rest =>
    match childNamed cs n with
    | some u =>
      match mkdirp u rest with
      | some u2 => some (FTree.dir (setChild cs n u2))
      | none => none
    | none =>
      match mkdirp (FTree.dir Forest.nil) rest with
      | some u2 => some (FTree.dir (setChild cs n u2))
      | none => none

/-- `fs.writeFileSync`: create or replace the file at the path; the parent
must already be a directory, and the target must not be a directory. -/
def writeFileT : FTree → FPath → Str → Option FTree
  | _, [], _ => none
  | FTree.file _, _ :: _, _ => none
  | FTree.dir cs, [n], content =>
    match childNamed cs n with
    | some (FTree.dir _) => none
    | _ => some (FTree.dir (setChild cs n (FTree.file content)))
  | FTree.dir cs, n :: rest1 :: rest2, content =>
    match childNamed cs n with
    | some u =>
      match writeFileT u (rest1 :: rest2) content with
      | some u2 => some (FTree.dir (setChild cs n u2))
      | none => none
    | none => none

/-- `ent.name.toLowerCase().endsWith('.strm')`. -/
def isStrmName (n : Str) : Bool := (lit ".strm").isSuffixOf (toLowerStr n)

/-- The three category roots (`convert.js` line 219). -/
def rootNames : List Str := [lit "TV Shows", lit "Movies", lit "Live"]

mutual
/-- The reconciliation walk over one directory's entries
(`convert.js` lines 221-250), sequential as permitted by the spec:
each entry is processed by `sweepEntry`; removed entries disappear from
the listing, and the per-file deletions are counted. -/
def sweepF (expected : List FPath) (pfx : FPath) : Forest → Forest × Nat
  | Forest.nil => (Forest.nil, 0)
  | Forest.cons n t rest =>
    let r := sweepEntry expected pfx n t
    let rr := sweepF expected pfx rest
    match r.1 with
    | none => (rr.1, r.2 + rr.2)
    | some t2 => (Forest.cons n t2 rr.1, r.2 + rr.2)

/-- One directory entry of the walk: a `.strm` file whose path relative
to the output root is not expected is deleted (counted); a subdirectory
is swept recursively and then removed if it is empty afterwards. -/
def sweepEntry (expected : List FPath) (pfx : FPath) (n : Str) :
    FTree → Option FTree × Nat
  | FTree.file content =>
    if isStrmName n && !(expected.contains (pfx ++ [n])) then (none, 1)
    else (some (FTree.file content), 0)
  | FTree.dir cs =>
    let rc := sweepF expected (pfx ++ [n]) cs
    if rc.1.isNil then (none, rc.2) else (some (FTree.dir rc.1), rc.2)
end

/-- One iteration of `for (const r of roots) await walk(r)`
(`convert.js` line 252): walk the root when it exists as a directory
(`readdir` on a missing or non-directory root throws and is caught);
the root directory itself is never removed. -/
def reconcileRoot (expected : List FPath) (acc : Forest × Nat) (rootName : Str) :
    Forest × Nat :=
  match childNamed acc.1 rootName with
  | some (FTree.dir rcs) =>
    let s := sweepF expected [rootName] rcs
    (setChild acc.1 rootName (FTree.dir s.1), acc.2 + s.2)
  | _ => acc

/-- The delete-missing pass (`convert.js` lines 217-253): walk each of the
three category roots. -/
def reconcile (expected : List FPath) (t : FTree) : FTree × Nat :=
  match t with
  | FTree.file c => (FTree.file c, 0)
  | FTree.dir cs =>
    let r := rootNames.foldl (reconcileRoot expected) (cs, 0)
    (FTree.dir r.1, r.2)

/-! The run orchestrator (`convertM3U`, `convert.js` lines 112-256).
The readline loop is modelled over the list of input lines; the
ignored-entry log is modelled as the list of records appended (the
run-header line and the log file's location are outside the tree).
The missing-input check precedes parsing and is not part of the loop. -/

structure IgnoredRecord where
  displayName : Str
  tvgType : Str
  groupTitle : Str
  tvgName : Str
  url : Str
deriving DecidableEq

structure RunState where
  pending : Option Str
  written : Nat
  skipped : Nat
  ignored : Nat
  deleted : Nat
  lastWritten : Option (FPath × Str)
  tree : FTree
  expected : List FPath
  log : List IgnoredRecord

/-- One iteration of the `for await (const rawLine of rl)` loop
(`convert.js` lines 147-211).  Returns `none` when a filesystem write
fails (the JS code would throw out of the run). -/
def processLine (opts : RunOptions) (st : RunState) (rawLine : Str) :
    Option RunState :=
  let line := trimJS rawLine
  if line = [] then some st
  else if (lit "#EXTINF:").isPrefixOf line then some { st with pending := some line }
  else if (lit "#").isPrefixOf line then some st
  else
    match st.pending with
    | none => some { st with ignored := st.ignored + 1 }
    | some ext =>
      let pe := parseExtinf ext
      let attrs := pe.1
      let displayName := pe.2
      let url := line
      match decideOutputForEntry attrs displayName opts with
      | none =>
        let st1 := { st with pending := none, ignored := st.ignored + 1 }
        if opts.logEnabled && !opts.dryRun then
          some { st1 with log := st1.log ++
            [⟨displayName, getAttrD attrs (lit "tvg-type"),
              getAttrD attrs (lit "group-title"), getAttrD attrs (lit "tvg-name"),
              url⟩] }
        else some st1
      | some rel =>
        let exp1 := if opts.deleteMissing then st.expected ++ [rel] else st.expected
        let st1 := { st with pending := none, expected := exp1 }
        if opts.dryRun then
          some { st1 with written := st1.written + 1, lastWritten := some (rel, url) }
        else
          match mkdirp st1.tree rel.dropLast with
          | none => none
          | some t1 =>
            if opts.overwrite = false ∧ existsT t1 rel = true then
              some { st1 with tree := t1, skipped := st1.skipped + 1 }
            else
              match writeFileT t1 rel (url ++ lit "\n") with
              | none => none
              | some t2 =>
                some { st1 with
                  tree := t2
                  written := st1.written + 1
                  lastWritten := some (rel, url) }

def runLines (opts : RunOptions) : RunState → List Str → Option RunState
  | st, [] => some st
  | st, l :: rest =>
    match processLine opts st l with
    | none => none
    | some st2 => runLines opts st2 rest

def initState (t0 : FTree) : RunState :=
  ⟨none, 0, 0, 0, 0, none, t0, [], []⟩

/-- The whole conversion run over the input lines, starting from the
output-root tree `t0`: the line loop, then — whenever `deleteMissing` is
set, regardless of `dryRun` (`convert.js` line 217) — the reconciliation
pass. -/
def runConvert (opts : RunOptions) (lines : List Str) (t0 : FTree) :
    Option RunState :=
  match runLines opts (initState t0) lines with
  | none => none
  | some st =>
    if opts.deleteMissing then
      let r := reconcile st.expected st.tree
      some { st with tree := r.1, deleted := st.deleted + r.2 }
    else some st

/-! Auxiliary specification-side definitions used by the claims. -/

/-- Modelled from the spec and claim C4 wording only (for comparison with
the implementation): a season/episode marker of the form
`S<1-2 digits>E<1-3 digits>`, loosely spaced, case-insensitive, on word
boundaries.  This is the code's search engine instantiated with the
claim's grammar: up to three episode digits with the gap optional. -/
def specSEMarker (s : Str) : Bool := (searchSE 3 false none s).isSome

/-- A plain path segment: joining never drops or normalizes it. -/
def plainSeg (s : Str) : Bool :=
  !(s == [] || s == lit "." || s == lit "..")

mutual
/-- Number of entries (files and directories) in a tree, for induction. -/
def sizeT : FTree → Nat
  | FTree.file _ => 1
  | FTree.dir cs => 1 + sizeF cs

def sizeF : Forest → Nat
  | Forest.nil => 0
  | Forest.cons _ t rest => 1 + sizeT t + sizeF rest
end

mutual
/-- Number of `.strm` files below `pfx` that the reconciliation walk
would delete: files whose relative path is not in `expected`. -/
def countStaleF (expected : List FPath) (pfx : FPath) : Forest → Nat
  | Forest.nil => 0
  | Forest.cons n t rest =>
    countStaleT expected pfx n t + countStaleF expected pfx rest

def countStaleT (expected : List FPath) (pfx : FPath) (n : Str) : FTree → Nat
  | FTree.file _ =>
    if isStrmName n && !(expected.contains (pfx ++ [n])) then 1 else 0
  | FTree.dir cs => countStaleF expected (pfx ++ [n]) cs
end

/-- Every strict ancestor of the path (including the root itself) exists
as a directory, and so does the path, so that `mkdirp` is a no-op. -/
def dirsReady : FTree → FPath → Bool
  | FTree.file _, _ => false
  | FTree.dir _, [] => true
  | FTree.dir cs, n :: rest =>
    match childNamed cs n with
    | some u => dirsReady u rest
    | none => false

/-- Growth order on trees: every node of `t1` still exists in `t2`, and
directories stay directories.  Conversion runs without `deleteMissing`
only grow the tree. -/
def TreeLE (t1 t2 : FTree) : Prop :=
  ∀ p : FPath, (existsT t1 p = true → existsT t2 p = true) ∧
    (isDirAt t1 p = true → isDirAt t2 p = true)

/-! Reference counters for claim C10, mirroring the two-state pairing
automaton of the line loop (`convert.js` lines 147-211) without the
filesystem: `orphanCount` counts target lines arriving with no pending
metadata line; `rejectCount` counts classified rejections. -/

def orphanCount (pending : Option Str) : List Str → Nat
  | [] => 0
  | l :: rest =>
    let line := trimJS l
    if line = [] then orphanCount pending rest
    else if (lit "#EXTINF:").isPrefixOf line then orphanCount (some line) rest
    else if (lit "#").isPrefixOf line then orphanCount pending rest
    else
      match pending with
      | none => 1 + orphanCount none rest
      | some _ => orphanCount none rest

def rejectCount (opts : RunOptions) (pending : Option Str) : List Str → Nat
  | [] => 0
  | l :: rest =>
    let line := trimJS l
    if line = [] then rejectCount opts pending rest
    else if (lit "#EXTINF:").isPrefixOf line then rejectCount opts (some line) rest
    else if (lit "#").isPrefixOf line then rejectCount opts pending rest
    else
      match pending with
      | none => rejectCount opts none rest
      | some ext =>
        match decideOutputForEntry (parseExtinf ext).1 (parseExtinf ext).2 opts with
        | none => 1 + rejectCount opts none rest
        | some _ => rejectCount opts none rest

/-! Concrete inputs used to settle individual claims. -/

/-- An output root holding one previously generated marker file
`Movies/2020/Old.strm`. -/
def treeWithOld : FTree :=
  FTree.dir (forestOf [(lit "Movies", FTree.dir (forestOf
    [(lit "2020", FTree.dir (forestOf
      [(lit "Old.strm", FTree.file (lit "http://old/stream\n"))]))]))])

/-- Options of a dry-run with deletion enabled (claim C1). -/
def c1opts : RunOptions := ⟨false, false, true, true, true, false, none⟩

/-- Options of a real run with deletion enabled (claim C3). -/
def c3opts : RunOptions := ⟨false, false, false, true, true, false, none⟩

/-- One movie entry `Title (2023)` with a year-bearing group label, and
its target line (claims C5, C7, C8). -/
def movieLines : List Str :=
  [ lit "#EXTINF:-1 tvg-type=\"movie\" group-title=\"Movies 1999\",Title (2023)",
    lit "http://example.com/stream" ]

/-- Options for the C8 scenario: `type=movie`, `moviesByYear=true`,
a real run over an empty output root. -/
def c8opts : RunOptions := ⟨false, false, false, true, false, false, none⟩

/-- The same movie input listed twice (claim C6). -/
def c6lines : List Str := movieLines ++ movieLines

/-- Options with `overwrite=false`, `dryRun=false`, `deleteMissing=false`
(claim C6). -/
def c6opts : RunOptions := ⟨false, false, false, true, false, false, none⟩

/-- Dry-run variant of the C8 scenario options (claim C7). -/
def c7optsDry : RunOptions := ⟨false, false, true, true, false, false, none⟩

/-- An output root already holding the file the C8 scenario would write
(claim C7's counterexample: with `overwrite=false` the real run skips
while the dry run counts a write). -/
def treeWithTitle : FTree :=
  FTree.dir (forestOf [(lit "Movies", FTree.dir (forestOf
    [(lit "2023", FTree.dir (forestOf
      [(lit "Title (2023).strm", FTree.file (lit "http://example.com/stream\n"))]))]))])

/-- Options with logging enabled for the C10 witness run. -/
def c10wOpts : RunOptions := ⟨false, false, false, true, false, true, none⟩

/-- C10 witness input: an orphan target line, one accepted movie entry,
one rejected live entry. -/
def c10wLines : List Str :=
  lit "orphan-target" :: movieLines ++
    [lit "#EXTINF:-1 tvg-type=\"live\" group-title=\"US\",Chan", lit "http://live"]

/-- The C10 witness run's final state. -/
def c10wRes : RunState :=
  match runConvert c10wOpts c10wLines (FTree.dir Forest.nil) with
  | some st => st
  | none => initState (FTree.dir Forest.nil)

/-- Overwrite-enabled options for the C7 witness run. -/
def c7wOpts : RunOptions := ⟨false, true, false, true, false, false, none⟩

/-- The C7 witness real run's final state. -/
def c7wRes : RunState :=
  match runConvert c7wOpts movieLines (FTree.dir Forest.nil) with
  | some st => st
  | none => initState (FTree.dir Forest.nil)

/-- The C6 witness first run's final state. -/
def c6wRes1 : RunState :=
  match runConvert c6opts movieLines (FTree.dir Forest.nil) with
  | some st => st
  | none => initState (FTree.dir Forest.nil)

/-- The reconciler's deletion test for a path relative to the output
root: a `.strm` name not expected this run. -/
def staleAt (e : List FPath) (q : FPath) : Bool :=
  (match q.getLast? with
   | some n => isStrmName n
   | none => false) && !(e.contains q)

mutual
/-- Well-formed tree: sibling names are distinct at every level, as in
any real directory tree. -/
def wfT : FTree → Bool
  | FTree.file _ => true
  | FTree.dir cs => wfF cs

def wfF : Forest → Bool
  | Forest.nil => true
  | Forest.cons n t rest => !(childNamed rest n).isSome && wfT t && wfF rest
end

/-- Total number of stale `.strm` files under the three category roots. -/
def countStaleRoots (e : List FPath) (cs : Forest) : Nat :=
  rootNames.foldl
    (fun a r =>
      a + (match childNamed cs r with
           | some (FTree.dir rcs) => countStaleF e [r] rcs
           | _ => 0))
    0

/-- The amended C3 contract of one reconciliation pass over the root
forest `cs`: stale `.strm` files under the three category roots are
deleted; every other file is untouched with unchanged content; paths not
under a category root are untouched; no directory strictly below a root
remains empty; the roots themselves survive; and the deleted counter is
the number of stale files. -/
def ReconcileSpec (e : List FPath) (cs : Forest) (res : FTree) (k : Nat) : Prop :=
  (∀ r p c, r ∈ rootNames → p ≠ [] →
    lookupFile (FTree.dir cs) (r :: p) = some c →
    staleAt e (r :: p) = true → lookupFile res (r :: p) = none) ∧
  (∀ r p c, r ∈ rootNames → p ≠ [] →
    lookupFile (FTree.dir cs) (r :: p) = some c →
    staleAt e (r :: p) = false → lookupFile res (r :: p) = some c) ∧
  (∀ r c, r ∈ rootNames → lookupFile (FTree.dir cs) [r] = some c →
    lookupFile res [r] = some c) ∧
  (∀ p c, (∀ r ∈ rootNames, p.head? ≠ some r) →
    (lookupFile res p = some c ↔ lookupFile (FTree.dir cs) p = some c)) ∧
  (∀ r p ds, r ∈ rootNames → p ≠ [] →
    lookupT res (r :: p) = some (FTree.dir ds) → ds.isNil = false) ∧
  (∀ r, r ∈ rootNames → isDirAt (FTree.dir cs) [r] = true → isDirAt res [r] = true) ∧
  k = countStaleRoots e cs

/-- The C3 witness run's loop state: the movie entry written over an
output root already holding the stale `Movies/2020/Old.strm`. -/
def c3wSt : RunState :=
  match runLines c3opts (initState treeWithOld) movieLines with
  | some st => st
  | none => initState (FTree.dir Forest.nil)

/-- The root forest of the C3 witness loop state's tree. -/
def c3wCs : Forest :=
  match c3wSt.tree with
  | FTree.dir cs => cs
  | FTree.file _ => Forest.nil

/-! Theorems. -/

example : sanitizeSegment (lit "Title (2023)") = lit "Title (2023)" := by decide

example : sanitizeSegment (lit "a/b: c?") = lit "a b c" := by decide

example : sanitizeSegment (lit "..") = lit ".." := by decide

example : sanitizeSegment (lit "  x   y ") = lit "x y" := by decide

theorem replaceClass_id (p : Char → Bool) (s : Str)
    (h : ∀ c ∈ s, p c = false) : replaceClass p s = s := by
  induction s with
  | nil => rfl
  | cons c rest ih =>
    simp only [replaceClass, List.map_cons]
    have hc := h c (by simp)
    rw [hc]
    simp only [if_false, Bool.false_eq_true]
    exact congrArg (c :: ·) (ih (fun d hd => h d (by simp [hd])))

theorem collapseWSAux_id (s : Str) (b : Bool)
    (hws : ∀ c ∈ s, jsWhitespace c → c = ' ')
    (hnd : noDoubleWS s)
    (hb : b = true → ∀ c, s.head? = some c → jsWhitespace c = false) :
    collapseWSAux b s = s := by
  induction s generalizing b with
  | nil => rfl
  | cons c rest ih =>
    by_cases hc : jsWhitespace c = true
    · have hb' : b = false := by
        cases b with
        | false => rfl
        | true => exact absurd hc (by simp [hb rfl c rfl])
      subst hb'
      simp only [collapseWSAux, hc, if_true]
      have hcsp : c = ' ' := hws c (by simp) hc
      have hrest : collapseWSAux true rest = rest := by
        apply ih
        · exact fun d hd => hws d (by simp [hd])
        · cases rest with
          | nil => trivial
          | cons d r2 => exact hnd.2
        · intro _ d hd
          cases rest with
          | nil => simp at hd
          | cons e r2 =>
            simp only [List.head?] at hd
            cases hd
            by_contra hdws
            exact hnd.1 ⟨hc, by simpa using hdws⟩
      simp [hrest, hcsp]
    · have hc' : jsWhitespace c = false := by simpa using hc
      simp only [collapseWSAux, hc', if_false, Bool.false_eq_true]
      have hrest : collapseWSAux false rest = rest := by
        apply ih
        · exact fun d hd => hws d (by simp [hd])
        · cases rest with
          | nil => trivial
          | cons d r2 => exact hnd.2
        · intro h; cases h
      rw [hrest]

theorem trimJS_id (s : Str)
    (h1 : ∀ c, s.head? = some c → jsWhitespace c = false)
    (h2 : ∀ c, s.getLast? = some c → jsWhitespace c = false) :
    trimJS s = s := by
  unfold trimJS
  have hd : s.dropWhile jsWhitespace = s := by
    cases s with
    | nil => rfl
    | cons c rest => simp [List.dropWhile, h1 c rfl]
  rw [hd]
  have hl : s.reverse.dropWhile jsWhitespace = s.reverse := by
    cases hrev : s.reverse with
    | nil => rfl
    | cons c rest =>
      have : s.getLast? = some c := by
        rw [← List.head?_reverse, hrev]; rfl
      simp [List.dropWhile, h2 c this]
  rw [hl, List.reverse_reverse]

theorem head_dropWhile_not (p : Char → Bool) (l : Str) (c : Char)
    (h : (l.dropWhile p).head? = some c) : p c = false := by
  induction l with
  | nil => simp [List.dropWhile] at h
  | cons a rest ih =>
    by_cases ha : p a = true
    · exact ih (by simpa [List.dropWhile, ha] using h)
    · simp only [List.dropWhile, ha] at h
      simp only [List.head?] at h
      cases h
      simpa using ha

theorem mem_dropWhile {p : Char → Bool} {l : Str} {c : Char}
    (h : c ∈ l.dropWhile p) : c ∈ l :=
  List.Sublist.mem h (List.dropWhile_sublist p)

theorem mem_trimJS {s : Str} {c : Char} (h : c ∈ trimJS s) : c ∈ s := by
  unfold trimJS at h
  rw [List.mem_reverse] at h
  have h2 := mem_dropWhile h
  rw [List.mem_reverse] at h2
  exact mem_dropWhile h2

theorem mem_collapseWSAux {b : Bool} {s : Str} {c : Char}
    (h : c ∈ collapseWSAux b s) :
    c = ' ' ∨ (c ∈ s ∧ jsWhitespace c = false) := by
  induction s generalizing b with
  | nil =>
    rw [show collapseWSAux b [] = ([] : Str) from rfl] at h
    cases h
  | cons a rest ih =>
    by_cases ha : jsWhitespace a = true
    · simp only [collapseWSAux, ha, if_true] at h
      cases b with
      | true =>
        rcases @ih true (by simpa using h) with h1 | h2
        · exact Or.inl h1
        · exact Or.inr ⟨by simp [h2.1], h2.2⟩
      | false =>
        simp only [Bool.false_eq_true, if_false, List.mem_cons] at h
        rcases h with h1 | h1
        · exact Or.inl h1
        · rcases @ih true h1 with h2 | h2
          · exact Or.inl h2
          · exact Or.inr ⟨by simp [h2.1], h2.2⟩
    · have ha' : jsWhitespace a = false := by simpa using ha
      simp only [collapseWSAux, ha', if_false, Bool.false_eq_true, List.mem_cons] at h
      rcases h with h1 | h1
      · subst h1; exact Or.inr ⟨by simp, ha'⟩
      · rcases @ih false h1 with h2 | h2
        · exact Or.inl h2
        · exact Or.inr ⟨by simp [h2.1], h2.2⟩

theorem head_collapseWSAux_true {s : Str} {c : Char}
    (h : (collapseWSAux true s).head? = some c) : jsWhitespace c = false := by
  induction s with
  | nil => simp [collapseWSAux] at h
  | cons a rest ih =>
    by_cases ha : jsWhitespace a = true
    · exact ih (by simpa [collapseWSAux, ha] using h)
    · have ha' : jsWhitespace a = false := by simpa using ha
      simp only [collapseWSAux, ha', if_false, Bool.false_eq_true, List.head?] at h
      cases h
      exact ha'

theorem noDoubleWS_tail {c : Char} {s : Str} (h : noDoubleWS (c :: s)) :
    noDoubleWS s := by
  cases s with
  | nil => trivial
  | cons d r => exact h.2

theorem noDoubleWS_cons {c : Char} {s : Str}
    (hh : ∀ d, s.head? = some d → ¬(jsWhitespace c ∧ jsWhitespace d))
    (ht : noDoubleWS s) : noDoubleWS (c :: s) := by
  cases s with
  | nil => trivial
  | cons d r => exact ⟨hh d rfl, ht⟩

theorem noDoubleWS_collapseWSAux (s : Str) (b : Bool) :
    noDoubleWS (collapseWSAux b s) := by
  induction s generalizing b with
  | nil => trivial
  | cons a rest ih =>
    by_cases ha : jsWhitespace a = true
    · simp only [collapseWSAux, ha, if_true]
      cases b with
      | true => exact ih true
      | false =>
        simp only [Bool.false_eq_true, if_false]
        apply noDoubleWS_cons
        · intro d hd hcon
          have := head_collapseWSAux_true hd
          rw [this] at hcon
          exact Bool.false_ne_true hcon.2
        · exact ih true
    · have ha' : jsWhitespace a = false := by simpa using ha
      simp only [collapseWSAux, ha', if_false, Bool.false_eq_true]
      apply noDoubleWS_cons
      · intro d _ hcon
        rw [ha'] at hcon
        exact Bool.false_ne_true hcon.1
      · exact ih false

/-- Transport `noDoubleWS` along `List.Chain'` to reuse its closure lemmas. -/
theorem noDoubleWS_iff_chain (s : Str) :
    noDoubleWS s ↔
      List.Chain' (fun a b => ¬(jsWhitespace a ∧ jsWhitespace b)) s := by
  induction s with
  | nil => simp [noDoubleWS]
  | cons a rest ih =>
    cases rest with
    | nil => simp [noDoubleWS]
    | cons b r2 =>
      rw [List.chain'_cons]
      constructor
      · intro h
        exact ⟨h.1, (ih).mp h.2⟩
      · intro h
        exact ⟨h.1, (ih).mpr h.2⟩

theorem noDoubleWS_dropWhile (p : Char → Bool) {s : Str}
    (h : noDoubleWS s) : noDoubleWS (s.dropWhile p) := by
  rw [noDoubleWS_iff_chain] at h ⊢
  exact h.suffix (List.dropWhile_suffix p)

theorem noDoubleWS_reverse {s : Str} (h : noDoubleWS s) :
    noDoubleWS s.reverse := by
  rw [noDoubleWS_iff_chain] at h ⊢
  rw [List.chain'_reverse]
  exact h.imp (fun a b hab hcon => hab ⟨hcon.2, hcon.1⟩)

theorem noDoubleWS_trimJS {s : Str} (h : noDoubleWS s) :
    noDoubleWS (trimJS s) := by
  unfold trimJS
  exact noDoubleWS_reverse (noDoubleWS_dropWhile _ (noDoubleWS_reverse
    (noDoubleWS_dropWhile _ h)))

theorem head_trimJS {s : Str} {c : Char}
    (h : (trimJS s).head? = some c) : jsWhitespace c = false := by
  unfold trimJS at h
  rw [List.head?_reverse] at h
  set u := s.dropWhile jsWhitespace with hu
  set v := u.reverse.dropWhile jsWhitespace with hv
  rcases @List.dropWhile_suffix _ u.reverse jsWhitespace with ⟨t, ht⟩
  rw [← hv] at ht
  have hvne : v ≠ [] := by
    intro hnil
    rw [hnil] at h
    simp at h
  have : v.getLast? = u.reverse.getLast? := by
    rw [← ht]
    exact (List.getLast?_append_of_ne_nil t hvne).symm
  rw [this, List.getLast?_reverse] at h
  exact head_dropWhile_not _ _ _ h

theorem getLast_trimJS {s : Str} {c : Char}
    (h : (trimJS s).getLast? = some c) : jsWhitespace c = false := by
  unfold trimJS at h
  rw [List.getLast?_reverse] at h
  exact head_dropWhile_not _ _ _ h

theorem cleanChars_sanitize (s : Str) : cleanChars (sanitizeSegment s) := by
  intro c hc
  have hc2 := mem_trimJS hc
  rcases mem_collapseWSAux hc2 with h1 | h2
  · subst h1
    refine ⟨by decide, by decide, fun _ => rfl⟩
  · rcases h2 with ⟨hmem, hws⟩
    have hctrl : ctrlChar c = false := by
      rcases List.mem_map.mp hmem with ⟨d, _, hd⟩
      by_cases hpd : ctrlChar d = true
      · rw [if_pos hpd] at hd
        subst hd; decide
      · simp only [Bool.not_eq_true] at hpd
        rw [if_neg (by simp [hpd])] at hd
        subst hd; simpa using hpd
    have hbad : badChar c = false := by
      rcases List.mem_map.mp hmem with ⟨d, hdm, hd⟩
      by_cases hpd : ctrlChar d = true
      · rw [if_pos hpd] at hd
        subst hd; decide
      · simp only [Bool.not_eq_true] at hpd
        rw [if_neg (by simp [hpd])] at hd
        subst hd
        rcases List.mem_map.mp hdm with ⟨e, _, he⟩
        by_cases hpe : badChar e = true
        · rw [if_pos hpe] at he; subst he; decide
        · simp only [Bool.not_eq_true] at hpe
          rw [if_neg (by simp [hpe])] at he
          subst he; simpa using hpe
    exact ⟨hbad, hctrl, fun hcon => absurd hcon (by simp [hws])⟩

/-- Claim C9 helper: the sanitizer output is a fixed point of every stage. -/
theorem sanitizeSegment_fixed (t : Str) (hc : cleanChars t)
    (hnd : noDoubleWS t)
    (hh : ∀ c, t.head? = some c → jsWhitespace c = false)
    (hl : ∀ c, t.getLast? = some c → jsWhitespace c = false) :
    sanitizeSegment t = t := by
  unfold sanitizeSegment
  rw [replaceClass_id badChar t (fun c h => (hc c h).1),
    replaceClass_id ctrlChar t (fun c h => (hc c h).2.1)]
  unfold collapseWS
  rw [collapseWSAux_id t false (fun c h => (hc c h).2.2) hnd (by intro h; cases h)]
  exact trimJS_id t hh hl

/-- C9: the path sanitizer is idempotent — sanitizing twice equals
sanitizing once, for every string. -/
theorem sanitizeSegment_idem (s : Str) :
    sanitizeSegment (sanitizeSegment s) = sanitizeSegment s := by
  apply sanitizeSegment_fixed
  · exact cleanChars_sanitize s
  · exact noDoubleWS_trimJS (noDoubleWS_collapseWSAux _ false)
  · exact fun c h => head_trimJS h
  · exact fun c h => getLast_trimJS h

example :
    parseExtinf (lit "#EXTINF:-1 tvg-type=\"movie\" group-title=\"G 1999\" ,Title (2023)") =
      ([(lit "tvg-type", lit "movie"), (lit "group-title", lit "G 1999")], lit "Title (2023)") := by
  decide

example : getAttrD [(lit "a", lit "x"), (lit "a", lit "y")] (lit "a") = lit "y" := by decide

example : parseIntPad2 (lit "01") = lit "01" := by decide

example : parseIntPad2 (lit "1") = lit "01" := by decide

example : parseIntPad2 (lit "101") = lit "101" := by decide

example : parseYearFromTitle (lit "Title (2023)") = some (lit "2023") := by decide

example : parseYearFromTitle (lit "Title (2023) x") = none := by decide

example : parseYearFromTitle (lit "Title (12345)") = none := by decide

example : findYear4 (lit "Movies 2025") = some (lit "2025") := by decide

example : findYear4 (lit "12345") = some (lit "2345") := by decide

example : findYear4 (lit "abc") = none := by decide

example : findSEm (lit "Show S01E02") = some (lit "01", lit "02") := by decide

example : findSEm (lit "Show S1 E101") = some (lit "1", lit "101") := by decide

example : findSEm (lit "Show S01E123") = none := by decide

example : findSEm (lit "ShowS01E02") = none := by decide

example : removeSE1 (lit "Show S01E02 x") = lit "Show  x" := by decide

example : normSegs [lit "TV Shows", lit "..", lit "Season 01", lit "f.strm"] =
    [lit "Season 01", lit "f.strm"] := by decide

example : normSegs [lit "Movies", lit "2023", lit "T.strm"] =
    [lit "Movies", lit "2023", lit "T.strm"] := by decide

/-! Claim-level concrete results. -/

/-- C1: the claim states that a dry run performs no filesystem mutation
and the deleted counter stays 0 even when `deleteMissing=true`.  The code
runs the reconciler whenever `deleteMissing` is set without consulting
`dryRun` (`convert.js` line 217): over an empty input, a dry run deletes
the pre-existing `Movies/2020/Old.strm` and reports `deleted = 1`. -/
theorem c1_dryRun_deleteMissing_deletes :
    lookupFile treeWithOld [lit "Movies", lit "2020", lit "Old.strm"] =
      some (lit "http://old/stream\n") ∧
    (runConvert c1opts [] treeWithOld).map (fun r => (r.written, r.deleted)) =
      some (0, 1) ∧
    (runConvert c1opts [] treeWithOld).map
      (fun r => lookupFile r.tree [lit "Movies", lit "2020", lit "Old.strm"]) =
      some none := by
  refine ⟨by decide, by decide, by decide⟩

/-- C2: the claim states every non-rejected classification is rooted at
one of the three category roots.  `sanitizeSegment` does not neutralize
a show folder consisting of `..`, and `path.join` then collapses
`TV Shows/..`: the display name `.. S01E01` (type `tvshows`, no
`tvg-name`) yields `Season 01/.. S01E01.strm`, which is not rooted at any
category root. -/
theorem c2_dotdot_escapes_category_root :
    decideOutputForEntry [(lit "tvg-type", lit "tvshows")] (lit ".. S01E01") c8opts =
      some [lit "Season 01", lit ".. S01E01.strm"] ∧
    (lit "Season 01") ∉ rootNames := by
  refine ⟨by decide, by decide⟩

/-- C5: the claim states the engine supports a by-folder movie layout
producing `Movies/<title>/<title>.strm`.  `convertM3U` accepts no
`moviesByFolder` option (its only layout switch is `moviesByYear`,
`convert.js` lines 90-100), even though the CLI forwards the flag and the
README documents it: for the entry `Title (2023)`, the classifier
produces the by-year or the flat layout and never the by-folder path,
whichever way the switch is set. -/
theorem c5_no_by_folder_layout :
    decideOutputForEntry (parseExtinf (movieLines[0]!)).1 (parseExtinf (movieLines[0]!)).2
      c8opts = some [lit "Movies", lit "2023", lit "Title (2023).strm"] ∧
    decideOutputForEntry (parseExtinf (movieLines[0]!)).1 (parseExtinf (movieLines[0]!)).2
      { c8opts with moviesByYear := false } =
      some [lit "Movies", lit "Title (2023).strm"] ∧
    (∀ b : Bool,
      decideOutputForEntry (parseExtinf (movieLines[0]!)).1 (parseExtinf (movieLines[0]!)).2
        { c8opts with moviesByYear := b } ≠
        some [lit "Movies", lit "Title (2023)", lit "Title (2023).strm"]) := by
  refine ⟨by decide, by decide, by decide⟩

/-- C3 counterexample: the claim states a directory whose children are
all removed is itself removed.  The walk never removes the category roots
(`convert.js` lines 219 and 252 walk them but only prune subdirectories):
deleting the only content of `Movies` removes `Movies/2020` but leaves
the now-empty `Movies` directory in place. -/
theorem c3_counterexample_root_not_pruned :
    existsT treeWithOld [lit "Movies", lit "2020"] = true ∧
    (runConvert c3opts [] treeWithOld).map
      (fun r => (r.deleted, isDirAt r.tree [lit "Movies"],
        existsT r.tree [lit "Movies", lit "2020"],
        existsT r.tree [lit "Movies", lit "2020", lit "Old.strm"])) =
      some (1, true, false, false) := by
  refine ⟨by decide, by decide⟩

/-- C4 counterexample: the claim's marker grammar is `S<1-2 digits>`
`E<1-3 digits>` loosely spaced, but the code accepts three episode digits
only when whitespace separates the parts (`convert.js` lines 48-50):
`Show S01E123` carries a marker of the claimed form yet is rejected. -/
theorem c4_counterexample_unspaced_three_digits :
    specSEMarker (lit "Show S01E123") = true ∧
    decideOutputForEntry [(lit "tvg-type", lit "tvshows")] (lit "Show S01E123")
      c8opts = none := by
  refine ⟨by decide, by decide⟩

/-- C6 counterexample: the claim states the second run's `skipped` equals
the first run's `written`.  When two entries map to the same output path,
the first run reports `written=1, skipped=1`, and the second run skips
both: `skipped=2 ≠ 1`. -/
theorem c6_counterexample_duplicate_entries :
    (runConvert c6opts c6lines (FTree.dir Forest.nil)).map
      (fun r => (r.written, r.skipped)) = some (1, 1) ∧
    ((runConvert c6opts c6lines (FTree.dir Forest.nil)).bind
      (fun r1 => runConvert c6opts c6lines r1.tree)).map
      (fun r => (r.written, r.skipped)) = some (0, 2) := by
  refine ⟨by decide, by decide⟩

/-- C7 counterexample: the claim states dry and real runs report the same
`written` count for every starting filesystem state.  When the output
file already exists and `overwrite=false`, the real run skips
(`written=0`) while the dry run counts the entry as written
(`convert.js` lines 196-199): `written=1`. -/
theorem c7_counterexample_preexisting_file :
    (runConvert c8opts movieLines treeWithTitle).map
      (fun r => (r.written, r.skipped, r.ignored)) = some (0, 1, 0) ∧
    (runConvert c7optsDry movieLines treeWithTitle).map
      (fun r => (r.written, r.skipped, r.ignored)) = some (1, 0, 0) := by
  refine ⟨by decide, by decide⟩

/-! Claim C10: the pairing loop's accounting. -/

theorem runLines_log_ignored (opts : RunOptions) (hlog : opts.logEnabled = true)
    (hdry : opts.dryRun = false) :
    ∀ (lines : List Str) (st fin : RunState),
      runLines opts st lines = some fin →
      fin.log.length = st.log.length + rejectCount opts st.pending lines ∧
      fin.ignored = st.ignored +
        (orphanCount st.pending lines + rejectCount opts st.pending lines) := by
  intro lines
  induction lines with
  | nil =>
    intro st fin h
    simp only [runLines] at h
    cases h
    simp [orphanCount, rejectCount]
  | cons l rest ih =>
    intro st fin h
    simp only [runLines] at h
    cases hp : processLine opts st l with
    | none => rw [hp] at h; cases h
    | some st2 =>
      rw [hp] at h
      obtain ⟨hl1, hl2⟩ := ih st2 fin h
      simp only [processLine] at hp
      by_cases hblank : trimJS l = []
      · rw [if_pos hblank] at hp
        cases hp
        constructor
        · rw [hl1]; simp [rejectCount, hblank]
        · rw [hl2]; simp [orphanCount, rejectCount, hblank]
      · rw [if_neg hblank] at hp
        by_cases hext : (lit "#EXTINF:").isPrefixOf (trimJS l) = true
        · rw [if_pos hext] at hp
          cases hp
          constructor
          · rw [hl1]; simp [rejectCount, hblank, hext]
          · rw [hl2]; simp [orphanCount, rejectCount, hblank, hext]
        · rw [if_neg hext] at hp
          by_cases hcom : (lit "#").isPrefixOf (trimJS l) = true
          · rw [if_pos hcom] at hp
            cases hp
            constructor
            · rw [hl1]; simp [rejectCount, hblank, hext, hcom]
            · rw [hl2]; simp [orphanCount, rejectCount, hblank, hext, hcom]
          · rw [if_neg hcom] at hp
            cases hpend : st.pending with
            | none =>
              rw [hpend] at hp
              simp only [] at hp
              cases hp
              constructor
              · rw [hl1]; simp [rejectCount, hblank, hext, hcom, hpend]
              · rw [hl2]
                simp only [orphanCount, rejectCount, hblank, hext, hcom, hpend,
                  if_neg, RunState.ignored]
                simp [hblank, hext, hcom]
                omega
            | some ext =>
              rw [hpend] at hp
              simp only [] at hp
              cases hrel : decideOutputForEntry (parseExtinf ext).1 (parseExtinf ext).2 opts with
              | none =>
                rw [hrel] at hp
                rw [hlog, hdry] at hp
                simp only [Bool.not_false, Bool.and_true, if_pos] at hp
                cases hp
                constructor
                · rw [hl1]
                  simp [rejectCount, hblank, hext, hcom, hpend, hrel]
                  omega
                · rw [hl2]
                  simp [orphanCount, rejectCount, hblank, hext, hcom, hpend, hrel]
                  omega
              | some rel =>
                rw [hrel] at hp
                rw [hdry] at hp
                simp only [Bool.false_eq_true, if_false] at hp
                have hfields : st2.log = st.log ∧ st2.ignored = st.ignored ∧
                    st2.pending = none := by
                  split at hp
                  · cases hp
                  · split at hp
                    · cases hp; exact ⟨rfl, rfl, rfl⟩
                    · split at hp
                      · cases hp
                      · cases hp; exact ⟨rfl, rfl, rfl⟩
                obtain ⟨hf1, hf2, hf3⟩ := hfields
                constructor
                · rw [hl1, hf1, hf3]
                  simp [rejectCount, hblank, hext, hcom, hpend, hrel]
                · rw [hl2, hf2, hf3]
                  simp [orphanCount, rejectCount, hblank, hext, hcom, hpend, hrel]

/-- C10: a non-comment, non-blank line arriving with no pending metadata
line increments the ignored counter but never produces a record in the
ignored-entry log: with logging configured and the run not dry, the log
holds exactly one record per classification rejection, and the ignored
counter is the number of such rejections plus the number of orphan
target lines. -/
theorem c10_orphans_not_logged (opts : RunOptions) (lines : List Str)
    (t0 : FTree) (r : RunState) (hlog : opts.logEnabled = true)
    (hdry : opts.dryRun = false) (h : runConvert opts lines t0 = some r) :
    r.log.length = rejectCount opts none lines ∧
    r.ignored = orphanCount none lines + rejectCount opts none lines := by
  simp only [runConvert] at h
  cases hr : runLines opts (initState t0) lines with
  | none => rw [hr] at h; cases h
  | some st =>
    rw [hr] at h
    simp only [] at h
    have hst := runLines_log_ignored opts hlog hdry lines (initState t0) st hr
    simp only [initState] at hst
    have hfin : r.log = st.log ∧ r.ignored = st.ignored := by
      by_cases hdel : opts.deleteMissing = true
      · rw [if_pos hdel] at h; cases h; exact ⟨rfl, rfl⟩
      · rw [if_neg hdel] at h; cases h; exact ⟨rfl, rfl⟩
    obtain ⟨hg1, hg2⟩ := hfin
    obtain ⟨h1, h2⟩ := hst
    constructor
    · rw [hg1]; simpa using h1
    · rw [hg2]; simpa using h2

/-- Witness for C10 at a concrete input: an orphan target line, a
rejected live entry, and an accepted movie entry: two ignored units, one
log record. -/
theorem c10_orphans_not_logged_witness :
    c10wOpts.logEnabled = true ∧ c10wOpts.dryRun = false ∧
    runConvert c10wOpts c10wLines (FTree.dir Forest.nil) = some c10wRes ∧
    (c10wRes.log.length = rejectCount c10wOpts none c10wLines ∧
      c10wRes.ignored = orphanCount none c10wLines + rejectCount c10wOpts none c10wLines) ∧
    c10wRes.log.length = 1 ∧ c10wRes.ignored = 2 := by
  have hrun : runConvert c10wOpts c10wLines (FTree.dir Forest.nil) = some c10wRes := rfl
  exact ⟨rfl, rfl, hrun,
    c10_orphans_not_logged c10wOpts c10wLines (FTree.dir Forest.nil) c10wRes rfl rfl hrun,
    by decide, by decide⟩

/-! Claim C7: dry-run versus real-run counters. -/

theorem decideOutput_ignores_dryRun (attrs : List (Str × Str)) (dn : Str)
    (opts : RunOptions) :
    decideOutputForEntry attrs dn { opts with dryRun := true } =
      decideOutputForEntry attrs dn opts := rfl

theorem runLines_dry_sim (opts : RunOptions) (hov : opts.overwrite = true)
    (hdry : opts.dryRun = false) :
    ∀ (lines : List Str) (stR stD finR : RunState),
      runLines opts stR lines = some finR →
      stD.pending = stR.pending →
      ∃ finD, runLines { opts with dryRun := true } stD lines = some finD ∧
        finD.pending = finR.pending ∧
        finD.written + stR.written = finR.written + stD.written ∧
        finD.ignored + stR.ignored = finR.ignored + stD.ignored := by
  intro lines
  induction lines with
  | nil =>
    intro stR stD finR h hpend
    simp only [runLines] at h
    cases h
    exact ⟨stD, rfl, hpend, by omega, by omega⟩
  | cons l rest ih =>
    intro stR stD finR h hpend
    simp only [runLines] at h
    cases hp : processLine opts stR l with
    | none => rw [hp] at h; cases h
    | some stR2 =>
      rw [hp] at h
      simp only [processLine] at hp
      by_cases hblank : trimJS l = []
      · rw [if_pos hblank] at hp
        cases hp
        obtain ⟨finD, hD, h1, h2, h3⟩ := ih _ stD finR h hpend
        refine ⟨finD, ?_, h1, h2, h3⟩
        simp only [runLines, processLine, if_pos hblank]
        exact hD
      · rw [if_neg hblank] at hp
        by_cases hext : (lit "#EXTINF:").isPrefixOf (trimJS l) = true
        · rw [if_pos hext] at hp
          cases hp
          obtain ⟨finD, hD, h1, h2, h3⟩ :=
            ih _ { stD with pending := some (trimJS l) } finR h rfl
          refine ⟨finD, ?_, h1, by simpa using h2, by simpa using h3⟩
          simp only [runLines, processLine, if_neg hblank, if_pos hext]
          exact hD
        · rw [if_neg hext] at hp
          by_cases hcom : (lit "#").isPrefixOf (trimJS l) = true
          · rw [if_pos hcom] at hp
            cases hp
            obtain ⟨finD, hD, h1, h2, h3⟩ := ih _ stD finR h hpend
            refine ⟨finD, ?_, h1, h2, h3⟩
            simp only [runLines, processLine, if_neg hblank, if_neg hext, if_pos hcom]
            exact hD
          · rw [if_neg hcom] at hp
            cases hpendR : stR.pending with
            | none =>
              rw [hpendR] at hp
              simp only [] at hp
              cases hp
              have hsp : stD.pending = none := hpend.trans hpendR
              obtain ⟨finD, hD, h1, h2, h3⟩ :=
                ih _ { stD with pending := none, ignored := stD.ignored + 1 } finR h
                  (by simp [hpendR])
              refine ⟨finD, ?_, h1, by simp at h2 ⊢; omega, by simp at h3 ⊢; omega⟩
              simp only [runLines, processLine, if_neg hblank, if_neg hext, if_neg hcom]
              rw [hsp]
              simp only []
              exact hD
            | some ext =>
              rw [hpendR] at hp
              simp only [] at hp
              have hsp : stD.pending = some ext := hpend.trans hpendR
              cases hrel : decideOutputForEntry (parseExtinf ext).1 (parseExtinf ext).2 opts with
              | none =>
                rw [hrel] at hp
                rw [hdry] at hp
                simp only [Bool.not_false, Bool.and_true] at hp
                have hfields : stR2.pending = none ∧ stR2.ignored = stR.ignored + 1 ∧
                    stR2.written = stR.written := by
                  split at hp
                  · cases hp; exact ⟨rfl, rfl, rfl⟩
                  · cases hp; exact ⟨rfl, rfl, rfl⟩
                obtain ⟨hf1, hf2, hf3⟩ := hfields
                obtain ⟨finD, hD, h1, h2, h3⟩ := ih stR2
                  { stD with pending := none, ignored := stD.ignored + 1 } finR h
                  (by rw [hf1])
                refine ⟨finD, ?_, h1, by simp [hf3] at h2 ⊢; omega,
                  by simp [hf2] at h3 ⊢; omega⟩
                simp only [runLines, processLine, if_neg hblank, if_neg hext, if_neg hcom]
                rw [hsp]
                simp only [decideOutput_ignores_dryRun, hrel]
                have hld : (opts.logEnabled && !({ opts with dryRun := true } : RunOptions).dryRun) = false := by
                  simp
                simp only [hld, Bool.false_eq_true, if_false]
                exact hD
              | some rel =>
                rw [hrel] at hp
                rw [hdry] at hp
                simp only [Bool.false_eq_true, if_false] at hp
                have hfields : stR2.pending = none ∧ stR2.ignored = stR.ignored ∧
                    stR2.written = stR.written + 1 := by
                  split at hp
                  · cases hp
                  · split at hp
                    · rename_i hcond
                      rw [hov] at hcond
                      simp at hcond
                    · split at hp
                      · cases hp
                      · cases hp; exact ⟨rfl, rfl, rfl⟩
                obtain ⟨hf1, hf2, hf3⟩ := hfields
                obtain ⟨finD, hD, h1, h2, h3⟩ := ih stR2
                  { stD with
                    pending := none
                    written := stD.written + 1
                    lastWritten := some (rel, trimJS l)
                    expected := if opts.deleteMissing = true then stD.expected ++ [rel]
                      else stD.expected } finR h (by rw [hf1])
                refine ⟨finD, ?_, h1, by simp [hf3] at h2 ⊢; omega,
                  by simp [hf2] at h3 ⊢; omega⟩
                simp only [runLines, processLine, if_neg hblank, if_neg hext, if_neg hcom]
                rw [hsp]
                simp only [decideOutput_ignores_dryRun, hrel]
                have hdD : ({ opts with dryRun := true } : RunOptions).dryRun = true := rfl
                simp only [hdD, if_true]
                exact hD

/-- C7 (amended): with `overwrite=true`, a dry run reports exactly the
`written` and `ignored` counts of a successful real run over the same
input, options and starting tree.  (The original claim, quantified over
every starting state with `overwrite=false`, fails: see the
counterexample.) -/
theorem c7_dryRun_same_counts (opts : RunOptions) (lines : List Str)
    (t0 : FTree) (r : RunState) (hov : opts.overwrite = true)
    (hdry : opts.dryRun = false) (h : runConvert opts lines t0 = some r) :
    (runConvert { opts with dryRun := true } lines t0).map
      (fun d => (d.written, d.ignored)) = some (r.written, r.ignored) := by
  simp only [runConvert] at h ⊢
  cases hr : runLines opts (initState t0) lines with
  | none => rw [hr] at h; cases h
  | some st =>
    rw [hr] at h
    simp only [] at h
    obtain ⟨finD, hD, _, h2, h3⟩ :=
      runLines_dry_sim opts hov hdry lines (initState t0) (initState t0) st hr rfl
    rw [hD]
    simp only []
    have hwr : r.written = st.written ∧ r.ignored = st.ignored := by
      by_cases hdel : opts.deleteMissing = true
      · rw [if_pos hdel] at h; cases h; exact ⟨rfl, rfl⟩
      · rw [if_neg hdel] at h; cases h; exact ⟨rfl, rfl⟩
    simp only [initState] at h2 h3
    have hw : finD.written = st.written := by omega
    have hi : finD.ignored = st.ignored := by omega
    have hdel2 : ({ opts with dryRun := true } : RunOptions).deleteMissing =
        opts.deleteMissing := rfl
    by_cases hdel : opts.deleteMissing = true
    · rw [hdel2, if_pos hdel]
      rw [hwr.1, hwr.2]
      simp [hw, hi]
    · rw [hdel2, if_neg hdel]
      rw [hwr.1, hwr.2]
      simp [hw, hi]

/-! Claim C6: tree lemmas for the second-run simulation. -/

theorem childNamed_setChildAux :
    ∀ (N : Nat) (cs : Forest), sizeF cs ≤ N → ∀ (n : Str) (t : FTree) (m : Str),
      childNamed (setChild cs n t) m = if m = n then some t else childNamed cs m := by
  intro N
  induction N with
  | zero =>
    intro cs hs n t m
    cases cs with
    | nil =>
      simp only [setChild, childNamed, beq_iff_eq]
      by_cases h : m = n
      · subst h; simp
      · rw [if_neg (fun he => h he.symm), if_neg h]
    | cons a u rest => simp [sizeF] at hs
  | succ N ih =>
    intro cs hs n t m
    cases cs with
    | nil =>
      simp only [setChild, childNamed, beq_iff_eq]
      by_cases h : m = n
      · subst h; simp
      · rw [if_neg (fun he => h he.symm), if_neg h]
    | cons a u rest =>
      simp only [sizeF] at hs
      have hrest : sizeF rest ≤ N := by omega
      by_cases han : a = n
      · subst han
        by_cases hmn : m = a
        · subst hmn
          simp [setChild, childNamed]
        · simp [setChild, childNamed, beq_iff_eq, hmn, Ne.symm hmn]
      · by_cases ham : a = m
        · subst ham
          have hna : ¬n = a := fun h => han h.symm
          simp [setChild, childNamed, beq_iff_eq, han, hna]
        · simp [setChild, childNamed, beq_iff_eq, han, ham, ih rest hrest n t m]

theorem childNamed_setChild (cs : Forest) (n : Str) (t : FTree) (m : Str) :
    childNamed (setChild cs n t) m = if m = n then some t else childNamed cs m :=
  childNamed_setChildAux (sizeF cs) cs (Nat.le_refl _) n t m

theorem setChild_selfAux :
    ∀ (N : Nat) (cs : Forest), sizeF cs ≤ N → ∀ (n : Str) (u : FTree),
      childNamed cs n = some u → setChild cs n u = cs := by
  intro N
  induction N with
  | zero =>
    intro cs hs n u hc
    cases cs with
    | nil => simp [childNamed] at hc
    | cons a t rest => simp [sizeF] at hs
  | succ N ih =>
    intro cs hs n u hc
    cases cs with
    | nil => simp [childNamed] at hc
    | cons a t rest =>
      simp only [sizeF] at hs
      by_cases han : a = n
      · subst han
        simp only [childNamed, beq_self_eq_true, if_pos] at hc
        cases hc
        simp [setChild]
      · simp only [childNamed, beq_iff_eq, if_neg han] at hc
        simp [setChild, beq_iff_eq, han, ih rest (by omega) n u hc]

theorem setChild_self (cs : Forest) (n : Str) (u : FTree)
    (hc : childNamed cs n = some u) : setChild cs n u = cs :=
  setChild_selfAux (sizeF cs) cs (Nat.le_refl _) n u hc

theorem existsT_nil (t : FTree) : existsT t [] = true := by cases t <;> rfl

theorem existsT_dir_cons (cs : Forest) (n : Str) (p : FPath) :
    existsT (FTree.dir cs) (n :: p) =
      match childNamed cs n with
      | some u => existsT u p
      | none => false := by
  simp only [existsT, lookupT]
  cases childNamed cs n <;> rfl

theorem isDirAt_dir_cons (cs : Forest) (n : Str) (p : FPath) :
    isDirAt (FTree.dir cs) (n :: p) =
      match childNamed cs n with
      | some u => isDirAt u p
      | none => false := by
  simp only [isDirAt, lookupT]
  cases childNamed cs n <;> rfl

theorem treeLE_refl (t : FTree) : TreeLE t t := fun _ => ⟨id, id⟩

theorem treeLE_trans {a b c : FTree} (h1 : TreeLE a b) (h2 : TreeLE b c) :
    TreeLE a c := fun p =>
  ⟨fun h => (h2 p).1 ((h1 p).1 h), fun h => (h2 p).2 ((h1 p).2 h)⟩

theorem treeLE_dir_of_children (cs cs' : Forest)
    (h : ∀ m u, childNamed cs m = some u →
      ∃ u2, childNamed cs' m = some u2 ∧ TreeLE u u2) :
    TreeLE (FTree.dir cs) (FTree.dir cs') := by
  intro p
  cases p with
  | nil => exact ⟨fun _ => rfl, fun _ => rfl⟩
  | cons m p2 =>
    constructor
    · intro hex
      rw [existsT_dir_cons] at hex ⊢
      cases hcn : childNamed cs m with
      | none => rw [hcn] at hex; cases hex
      | some u =>
        rw [hcn] at hex
        obtain ⟨u2, hc2, hle⟩ := h m u hcn
        rw [hc2]
        exact (hle p2).1 hex
    · intro hex
      rw [isDirAt_dir_cons] at hex ⊢
      cases hcn : childNamed cs m with
      | none => rw [hcn] at hex; cases hex
      | some u =>
        rw [hcn] at hex
        obtain ⟨u2, hc2, hle⟩ := h m u hcn
        rw [hc2]
        exact (hle p2).2 hex

theorem treeLE_child {cs cs' : Forest} {n : Str} {u u' : FTree}
    (h : TreeLE (FTree.dir cs) (FTree.dir cs'))
    (hc : childNamed cs n = some u) (hc' : childNamed cs' n = some u') :
    TreeLE u u' := by
  intro p
  constructor
  · intro hex
    have h2 := (h (n :: p)).1
    rw [existsT_dir_cons, hc, existsT_dir_cons, hc'] at h2
    exact h2 hex
  · intro hex
    have h2 := (h (n :: p)).2
    rw [isDirAt_dir_cons, hc, isDirAt_dir_cons, hc'] at h2
    exact h2 hex

theorem mkdirp_mono : ∀ (q : FPath) (t t' : FTree),
    mkdirp t q = some t' → TreeLE t t' := by
  intro q
  induction q with
  | nil =>
    intro t t' hp
    cases t with
    | file c => cases hp
    | dir cs => cases hp; exact treeLE_refl _
  | cons n rest ih =>
    intro t t' hp
    cases t with
    | file c => cases hp
    | dir cs =>
      simp only [mkdirp] at hp
      cases hcn : childNamed cs n with
      | some u =>
        rw [hcn] at hp
        simp only [] at hp
        cases hm : mkdirp u rest with
        | none => rw [hm] at hp; cases hp
        | some u2 =>
          rw [hm] at hp
          simp only [] at hp
          cases hp
          apply treeLE_dir_of_children
          intro m u0 hc0
          rw [childNamed_setChild]
          by_cases hmn : m = n
          · subst hmn
            rw [hc0] at hcn
            cases hcn
            exact ⟨u2, if_pos rfl, ih _ _ hm⟩
          · exact ⟨u0, by rw [if_neg hmn, hc0], treeLE_refl _⟩
      | none =>
        rw [hcn] at hp
        simp only [] at hp
        cases hm : mkdirp (FTree.dir Forest.nil) rest with
        | none => rw [hm] at hp; cases hp
        | some u2 =>
          rw [hm] at hp
          simp only [] at hp
          cases hp
          apply treeLE_dir_of_children
          intro m u0 hc0
          rw [childNamed_setChild]
          by_cases hmn : m = n
          · subst hmn; rw [hc0] at hcn; cases hcn
          · exact ⟨u0, by rw [if_neg hmn, hc0], treeLE_refl _⟩

theorem mkdirp_of_ready : ∀ (q : FPath) (t : FTree),
    dirsReady t q = true → mkdirp t q = some t := by
  intro q
  induction q with
  | nil =>
    intro t hr
    cases t with
    | file c => simp [dirsReady] at hr
    | dir cs => rfl
  | cons n rest ih =>
    intro t hr
    cases t with
    | file c => simp [dirsReady] at hr
    | dir cs =>
      simp only [dirsReady] at hr
      cases hcn : childNamed cs n with
      | none => rw [hcn] at hr; cases hr
      | some u =>
        rw [hcn] at hr
        simp only [mkdirp, hcn]
        rw [ih u hr]
        simp only []
        rw [setChild_self cs n u hcn]
  
theorem mkdirp_ready : ∀ (q : FPath) (t t' : FTree),
    mkdirp t q = some t' → dirsReady t' q = true := by
  intro q
  induction q with
  | nil =>
    intro t t' hp
    cases t with
    | file c => cases hp
    | dir cs => cases hp; rfl
  | cons n rest ih =>
    intro t t' hp
    cases t with
    | file c => cases hp
    | dir cs =>
      simp only [mkdirp] at hp
      cases hcn : childNamed cs n with
      | some u =>
        rw [hcn] at hp
        simp only [] at hp
        cases hm : mkdirp u rest with
        | none => rw [hm] at hp; cases hp
        | some u2 =>
          rw [hm] at hp
          simp only [] at hp
          cases hp
          simp only [dirsReady, childNamed_setChild, if_pos rfl]
          exact ih _ _ hm
      | none =>
        rw [hcn] at hp
        simp only [] at hp
        cases hm : mkdirp (FTree.dir Forest.nil) rest with
        | none => rw [hm] at hp; cases hp
        | some u2 =>
          rw [hm] at hp
          simp only [] at hp
          cases hp
          simp only [dirsReady, childNamed_setChild, if_pos rfl]
          exact ih _ _ hm

theorem dirsReady_isDir {t : FTree} {q : FPath} (h : dirsReady t q = true) :
    isDirAt t [] = true := by
  cases t with
  | file c => simp [dirsReady] at h
  | dir cs => rfl

theorem dirsReady_mono : ∀ (q : FPath) (t t' : FTree),
    TreeLE t t' → dirsReady t q = true → dirsReady t' q = true := by
  intro q
  induction q with
  | nil =>
    intro t t' hle hr
    have h2 := (hle []).2 (dirsReady_isDir hr)
    cases t' with
    | file c => simp [isDirAt, lookupT] at h2
    | dir cs => rfl
  | cons n rest ih =>
    intro t t' hle hr
    cases t with
    | file c => simp [dirsReady] at hr
    | dir cs =>
      simp only [dirsReady] at hr
      cases hcn : childNamed cs n with
      | none => rw [hcn] at hr; cases hr
      | some u =>
        rw [hcn] at hr
        have hudir : isDirAt u [] = true := dirsReady_isDir hr
        have hdn : isDirAt (FTree.dir cs) [n] = true := by
          rw [isDirAt_dir_cons, hcn]; exact hudir
        have hdn' := (hle [n]).2 hdn
        have htdir : isDirAt t' [] = true := (hle []).2 rfl
        cases t' with
        | file c => simp [isDirAt, lookupT] at htdir
        | dir cs' =>
          rw [isDirAt_dir_cons] at hdn'
          cases hcn' : childNamed cs' n with
          | none => rw [hcn'] at hdn'; cases hdn'
          | some u' =>
            rw [hcn'] at hdn'
            simp only [dirsReady, hcn']
            exact ih u u' (treeLE_child hle hcn hcn') hr

theorem writeFileT_mono : ∀ (p : FPath) (t : FTree) (c : Str) (t' : FTree),
    writeFileT t p c = some t' → TreeLE t t' := by
  intro p
  induction p with
  | nil => intro t c t' hp; cases t <;> cases hp
  | cons n rest ih =>
    intro t c t' hp
    cases t with
    | file c0 => cases hp
    | dir cs =>
      cases rest with
      | nil =>
        simp only [writeFileT] at hp
        cases hcn : childNamed cs n with
        | some u =>
          rw [hcn] at hp
          cases u with
          | dir ds => cases hp
          | file c0 =>
            simp only [] at hp
            cases hp
            apply treeLE_dir_of_children
            intro m u0 hc0
            rw [childNamed_setChild]
            by_cases hmn : m = n
            · subst hmn
              rw [hc0] at hcn
              cases hcn
              refine ⟨FTree.file c, if_pos rfl, ?_⟩
              intro p2
              cases p2 with
              | nil => exact ⟨fun _ => rfl, fun h => by simp [isDirAt, lookupT] at h⟩
              | cons x xs =>
                exact ⟨fun h => by simp [existsT, lookupT] at h,
                  fun h => by simp [isDirAt, lookupT] at h⟩
            · exact ⟨u0, by rw [if_neg hmn, hc0], treeLE_refl _⟩
        | none =>
          rw [hcn] at hp
          simp only [] at hp
          cases hp
          apply treeLE_dir_of_children
          intro m u0 hc0
          rw [childNamed_setChild]
          by_cases hmn : m = n
          · subst hmn; rw [hc0] at hcn; cases hcn
          · exact ⟨u0, by rw [if_neg hmn, hc0], treeLE_refl _⟩
      | cons r1 r2 =>
        simp only [writeFileT] at hp
        cases hcn : childNamed cs n with
        | none => rw [hcn] at hp; cases hp
        | some u =>
          rw [hcn] at hp
          simp only [] at hp
          cases hw : writeFileT u (r1 :: r2) c with
          | none => rw [hw] at hp; cases hp
          | some u2 =>
            rw [hw] at hp
            simp only [] at hp
            cases hp
            apply treeLE_dir_of_children
            intro m u0 hc0
            rw [childNamed_setChild]
            by_cases hmn : m = n
            · subst hmn
              rw [hc0] at hcn
              cases hcn
              exact ⟨u2, if_pos rfl, ih _ _ _ hw⟩
            · exact ⟨u0, by rw [if_neg hmn, hc0], treeLE_refl _⟩

theorem writeFileT_file : ∀ (p : FPath) (t : FTree) (c : Str) (t' : FTree),
    writeFileT t p c = some t' → lookupFile t' p = some c := by
  intro p
  induction p with
  | nil => intro t c t' hp; cases t <;> cases hp
  | cons n rest ih =>
    intro t c t' hp
    cases t with
    | file c0 => cases hp
    | dir cs =>
      cases rest with
      | nil =>
        simp only [writeFileT] at hp
        cases hcn : childNamed cs n with
        | some u =>
          rw [hcn] at hp
          cases u with
          | dir ds => cases hp
          | file c0 =>
            simp only [] at hp
            cases hp
            simp [lookupFile, lookupT, childNamed_setChild]
        | none =>
          rw [hcn] at hp
          simp only [] at hp
          cases hp
          simp [lookupFile, lookupT, childNamed_setChild]
      | cons r1 r2 =>
        simp only [writeFileT] at hp
        cases hcn : childNamed cs n with
        | none => rw [hcn] at hp; cases hp
        | some u =>
          rw [hcn] at hp
          simp only [] at hp
          cases hw : writeFileT u (r1 :: r2) c with
          | none => rw [hw] at hp; cases hp
          | some u2 =>
            rw [hw] at hp
            simp only [] at hp
            cases hp
            simp only [lookupFile, lookupT, childNamed_setChild, if_pos rfl]
            have := ih _ _ _ hw
            simp only [lookupFile] at this
            exact this

theorem processLine_mono (opts : RunOptions) (st : RunState) (l : Str)
    (st' : RunState) (hp : processLine opts st l = some st') :
    TreeLE st.tree st'.tree := by
  simp only [processLine] at hp
  by_cases hblank : trimJS l = []
  · rw [if_pos hblank] at hp; cases hp; exact treeLE_refl _
  · rw [if_neg hblank] at hp
    by_cases hext : (lit "#EXTINF:").isPrefixOf (trimJS l) = true
    · rw [if_pos hext] at hp; cases hp; exact treeLE_refl _
    · rw [if_neg hext] at hp
      by_cases hcom : (lit "#").isPrefixOf (trimJS l) = true
      · rw [if_pos hcom] at hp; cases hp; exact treeLE_refl _
      · rw [if_neg hcom] at hp
        cases hpend : st.pending with
        | none => rw [hpend] at hp; simp only [] at hp; cases hp; exact treeLE_refl _
        | some ext =>
          rw [hpend] at hp
          simp only [] at hp
          cases hrel : decideOutputForEntry (parseExtinf ext).1 (parseExtinf ext).2 opts with
          | none =>
            rw [hrel] at hp
            by_cases hlog2 : (opts.logEnabled && !opts.dryRun) = true
            · rw [if_pos hlog2] at hp; cases hp; exact treeLE_refl _
            · rw [if_neg hlog2] at hp; cases hp; exact treeLE_refl _
          | some rel =>
            rw [hrel] at hp
            simp only [] at hp
            by_cases hdry : opts.dryRun = true
            · rw [if_pos hdry] at hp; cases hp; exact treeLE_refl _
            · rw [if_neg hdry] at hp
              cases hm : mkdirp st.tree rel.dropLast with
              | none => rw [hm] at hp; cases hp
              | some t1 =>
                rw [hm] at hp
                simp only [] at hp
                have hle1 : TreeLE st.tree t1 := mkdirp_mono _ _ _ hm
                split at hp
                · cases hp; exact hle1
                · cases hw : writeFileT t1 rel (trimJS l ++ lit "\n") with
                  | none => rw [hw] at hp; cases hp
                  | some t2 =>
                    rw [hw] at hp
                    simp only [] at hp
                    cases hp
                    exact treeLE_trans hle1 (writeFileT_mono _ _ _ _ hw)

theorem runLines_mono (opts : RunOptions) :
    ∀ (lines : List Str) (st fin : RunState),
      runLines opts st lines = some fin → TreeLE st.tree fin.tree := by
  intro lines
  induction lines with
  | nil =>
    intro st fin h
    simp only [runLines] at h
    cases h
    exact treeLE_refl _
  | cons l rest ih =>
    intro st fin h
    simp only [runLines] at h
    cases hp : processLine opts st l with
    | none => rw [hp] at h; cases h
    | some st2 =>
      rw [hp] at h
      exact treeLE_trans (processLine_mono opts st l st2 hp) (ih st2 fin h)

theorem existsT_of_lookupFile {t : FTree} {p : FPath} {c : Str}
    (h : lookupFile t p = some c) : existsT t p = true := by
  simp only [lookupFile] at h
  cases hl : lookupT t p with
  | none => rw [hl] at h; cases h
  | some u => simp [existsT, hl]

theorem runLines_second_sim (opts : RunOptions) (hov : opts.overwrite = false)
    (hdry : opts.dryRun = false) (hdel : opts.deleteMissing = false) :
    ∀ (lines : List Str) (st1 st2 fin1 : RunState),
      runLines opts st1 lines = some fin1 →
      st2.pending = st1.pending →
      st2.tree = fin1.tree →
      ∃ fin2, runLines opts st2 lines = some fin2 ∧
        fin2.tree = fin1.tree ∧
        fin2.written = st2.written ∧
        fin2.skipped + st1.written + st1.skipped =
          st2.skipped + fin1.written + fin1.skipped := by
  intro lines
  induction lines with
  | nil =>
    intro st1 st2 fin1 h hpend htree
    simp only [runLines] at h
    cases h
    exact ⟨st2, rfl, htree, rfl, by omega⟩
  | cons l rest ih =>
    intro st1 st2 fin1 h hpend htree
    simp only [runLines] at h
    cases hp : processLine opts st1 l with
    | none => rw [hp] at h; cases h
    | some st1b =>
      rw [hp] at h
      simp only [processLine] at hp
      by_cases hblank : trimJS l = []
      · rw [if_pos hblank] at hp
        cases hp
        obtain ⟨fin2, h2a, h2b, h2c, h2d⟩ := ih _ st2 fin1 h hpend htree
        refine ⟨fin2, ?_, h2b, h2c, h2d⟩
        simp only [runLines, processLine, if_pos hblank]
        exact h2a
      · rw [if_neg hblank] at hp
        by_cases hext : (lit "#EXTINF:").isPrefixOf (trimJS l) = true
        · rw [if_pos hext] at hp
          cases hp
          obtain ⟨fin2, h2a, h2b, h2c, h2d⟩ :=
            ih _ { st2 with pending := some (trimJS l) } fin1 h rfl htree
          refine ⟨fin2, ?_, h2b, by simpa using h2c, by simpa using h2d⟩
          simp only [runLines, processLine, if_neg hblank, if_pos hext]
          exact h2a
        · rw [if_neg hext] at hp
          by_cases hcom : (lit "#").isPrefixOf (trimJS l) = true
          · rw [if_pos hcom] at hp
            cases hp
            obtain ⟨fin2, h2a, h2b, h2c, h2d⟩ := ih _ st2 fin1 h hpend htree
            refine ⟨fin2, ?_, h2b, h2c, h2d⟩
            simp only [runLines, processLine, if_neg hblank, if_neg hext, if_pos hcom]
            exact h2a
          · rw [if_neg hcom] at hp
            cases hpend1 : st1.pending with
            | none =>
              rw [hpend1] at hp
              simp only [] at hp
              cases hp
              have hsp : st2.pending = none := hpend.trans hpend1
              obtain ⟨fin2, h2a, h2b, h2c, h2d⟩ :=
                ih _ { st2 with pending := none, ignored := st2.ignored + 1 } fin1 h
                  (by simp [hpend1]) htree
              refine ⟨fin2, ?_, h2b, by simpa using h2c, by simp at h2d ⊢; omega⟩
              simp only [runLines, processLine, if_neg hblank, if_neg hext, if_neg hcom]
              rw [hsp]
              simp only []
              exact h2a
            | some ext =>
              rw [hpend1] at hp
              simp only [] at hp
              have hsp : st2.pending = some ext := hpend.trans hpend1
              cases hrel : decideOutputForEntry (parseExtinf ext).1 (parseExtinf ext).2 opts with
              | none =>
                rw [hrel] at hp
                by_cases hlg : (opts.logEnabled && !opts.dryRun) = true
                · rw [if_pos hlg] at hp
                  cases hp
                  obtain ⟨fin2, h2a, h2b, h2c, h2d⟩ := ih _
                    { st2 with
                      pending := none
                      ignored := st2.ignored + 1
                      log := st2.log ++
                        [⟨(parseExtinf ext).2, getAttrD (parseExtinf ext).1 (lit "tvg-type"),
                          getAttrD (parseExtinf ext).1 (lit "group-title"),
                          getAttrD (parseExtinf ext).1 (lit "tvg-name"), trimJS l⟩] } fin1 h
                    rfl htree
                  refine ⟨fin2, ?_, h2b, by simpa using h2c, by simp at h2d ⊢; omega⟩
                  simp only [runLines, processLine, if_neg hblank, if_neg hext, if_neg hcom]
                  rw [hsp]
                  simp only [hrel]
                  rw [if_pos hlg]
                  exact h2a
                · rw [if_neg hlg] at hp
                  cases hp
                  obtain ⟨fin2, h2a, h2b, h2c, h2d⟩ := ih _
                    { st2 with pending := none, ignored := st2.ignored + 1 } fin1 h
                    rfl htree
                  refine ⟨fin2, ?_, h2b, by simpa using h2c, by simp at h2d ⊢; omega⟩
                  simp only [runLines, processLine, if_neg hblank, if_neg hext, if_neg hcom]
                  rw [hsp]
                  simp only [hrel]
                  rw [if_neg hlg]
                  exact h2a
              | some rel =>
                rw [hrel] at hp
                simp only [] at hp
                rw [hdry] at hp
                simp only [Bool.false_eq_true, if_false] at hp
                rw [hdel] at hp
                simp only [Bool.false_eq_true, if_false] at hp
                cases hm : mkdirp st1.tree rel.dropLast with
                | none => rw [hm] at hp; cases hp
                | some t1 =>
                  rw [hm] at hp
                  simp only [] at hp
                  have hready1 : dirsReady t1 rel.dropLast = true :=
                    mkdirp_ready _ _ _ hm
                  have hstep : st1b.pending = none ∧ st1b.written + st1b.skipped =
                      st1.written + st1.skipped + 1 ∧
                      existsT st1b.tree rel = true ∧
                      dirsReady st1b.tree rel.dropLast = true := by
                    by_cases hcond : (opts.overwrite = false ∧ existsT t1 rel = true)
                    · rw [if_pos hcond] at hp
                      cases hp
                      exact ⟨rfl, by simp; omega, hcond.2, hready1⟩
                    · rw [if_neg hcond] at hp
                      cases hw : writeFileT t1 rel (trimJS l ++ lit "\n") with
                      | none => rw [hw] at hp; cases hp
                      | some t2 =>
                        rw [hw] at hp
                        simp only [] at hp
                        cases hp
                        refine ⟨rfl, by simp; omega,
                          existsT_of_lookupFile (writeFileT_file _ _ _ _ hw), ?_⟩
                        exact dirsReady_mono _ _ _ (writeFileT_mono _ _ _ _ hw) hready1
                  obtain ⟨hs1, hs2, hs3, hs4⟩ := hstep
                  have hle : TreeLE st1b.tree fin1.tree := runLines_mono opts rest st1b fin1 h
                  have hexF : existsT fin1.tree rel = true := (hle rel).1 hs3
                  have hreadyF : dirsReady fin1.tree rel.dropLast = true :=
                    dirsReady_mono _ _ _ hle hs4
                  obtain ⟨fin2, h2a, h2b, h2c, h2d⟩ := ih st1b
                    { st2 with
                      pending := none
                      tree := fin1.tree
                      skipped := st2.skipped + 1 } fin1 h (by rw [hs1]) rfl
                  refine ⟨fin2, ?_, h2b, by simpa using h2c, by simp at h2d ⊢; omega⟩
                  simp only [runLines, processLine, if_neg hblank, if_neg hext, if_neg hcom]
                  rw [hsp]
                  simp only [hrel]
                  rw [hdry]
                  simp only [Bool.false_eq_true, if_false]
                  rw [hdel]
                  simp only [Bool.false_eq_true, if_false]
                  rw [htree, mkdirp_of_ready _ _ hreadyF]
                  simp only []
                  rw [if_pos ⟨hov, hexF⟩]
                  exact h2a

/-- C7 witness: the movie scenario from an empty root with
`overwrite=true`: the real run writes once; the theorem transports the
counts to the dry run. -/
theorem c7_dryRun_same_counts_witness :
    c7wOpts.overwrite = true ∧ c7wOpts.dryRun = false ∧
    runConvert c7wOpts movieLines (FTree.dir Forest.nil) = some c7wRes ∧
    (runConvert { c7wOpts with dryRun := true } movieLines (FTree.dir Forest.nil)).map
      (fun d => (d.written, d.ignored)) = some (c7wRes.written, c7wRes.ignored) ∧
    c7wRes.written = 1 ∧ c7wRes.ignored = 0 := by
  have hrun : runConvert c7wOpts movieLines (FTree.dir Forest.nil) = some c7wRes := rfl
  exact ⟨rfl, rfl, hrun,
    c7_dryRun_same_counts c7wOpts movieLines (FTree.dir Forest.nil) c7wRes rfl rfl hrun,
    by decide, by decide⟩

/-- C6 (amended): with `overwrite=false`, `dryRun=false`,
`deleteMissing=false`, running the conversion again over the final tree
of a successful run yields `written=0` and `skipped` equal to the first
run's `written + skipped` (which is the first run's `written` whenever
the first run skipped nothing, as from an empty output root without
duplicate output paths), and leaves the output tree unchanged. -/
theorem c6_second_run_skips (opts : RunOptions) (lines : List Str) (t0 : FTree)
    (r1 : RunState) (hov : opts.overwrite = false) (hdry : opts.dryRun = false)
    (hdel : opts.deleteMissing = false) (h : runConvert opts lines t0 = some r1) :
    (runConvert opts lines r1.tree).map
      (fun r2 => (r2.written, r2.skipped, r2.tree)) =
      some (0, r1.written + r1.skipped, r1.tree) := by
  simp only [runConvert] at h ⊢
  cases hr : runLines opts (initState t0) lines with
  | none => rw [hr] at h; cases h
  | some st =>
    rw [hr] at h
    simp only [] at h
    rw [hdel] at h
    simp only [Bool.false_eq_true, if_false] at h
    cases h
    obtain ⟨fin2, h2a, h2b, h2c, h2d⟩ :=
      runLines_second_sim opts hov hdry hdel lines (initState t0)
        (initState r1.tree) r1 hr rfl rfl
    rw [h2a]
    simp only []
    rw [hdel]
    simp only [Bool.false_eq_true, if_false, Option.map]
    simp only [initState] at h2c h2d
    have hsk : fin2.skipped = r1.written + r1.skipped := by omega
    rw [h2b, h2c, hsk]

/-- C6 witness: one movie entry from an empty root: the first run writes
one file and skips none; the second run writes nothing, skips one, and
leaves the tree unchanged. -/
theorem c6_second_run_skips_witness :
    c6opts.overwrite = false ∧ c6opts.dryRun = false ∧
    c6opts.deleteMissing = false ∧
    runConvert c6opts movieLines (FTree.dir Forest.nil) = some c6wRes1 ∧
    (runConvert c6opts movieLines c6wRes1.tree).map
      (fun r2 => (r2.written, r2.skipped, r2.tree)) =
      some (0, c6wRes1.written + c6wRes1.skipped, c6wRes1.tree) ∧
    c6wRes1.written = 1 ∧ c6wRes1.skipped = 0 := by
  have hrun : runConvert c6opts movieLines (FTree.dir Forest.nil) = some c6wRes1 := rfl
  exact ⟨rfl, rfl, rfl, hrun,
    c6_second_run_skips c6opts movieLines (FTree.dir Forest.nil) c6wRes1 rfl rfl rfl hrun,
    by decide, by decide⟩

/-! Claims C8 and C4: classifier path shapes. -/

theorem plainSeg_length {s : Str} (h : 2 < s.length) : plainSeg s = true := by
  simp only [plainSeg, Bool.not_eq_true']
  simp only [Bool.or_eq_false_iff, beq_eq_false_iff_ne, ne_eq]
  refine ⟨⟨?_, ?_⟩, ?_⟩ <;> intro he <;> subst he <;> simp [lit] at h
 
theorem normSegs_plainAux :
    ∀ (segs : List Str) (acc : FPath), (∀ s ∈ segs, plainSeg s = true) →
      List.foldl
        (fun acc s =>
          if s = [] ∨ s = lit "." then acc
          else if s = lit ".." then
            match acc.getLast? with
            | none => acc ++ [s]
            | some t => if t = lit ".." then acc ++ [s] else acc.dropLast
          else acc ++ [s])
        acc segs = acc ++ segs := by
  intro segs
  induction segs with
  | nil => intro acc _; simp
  | cons s rest ih =>
    intro acc hall
    have hs := hall s (by simp)
    simp only [plainSeg, Bool.not_eq_true'] at hs
    simp only [Bool.or_eq_false_iff, beq_eq_false_iff_ne, ne_eq] at hs
    simp only [List.foldl_cons]
    rw [if_neg (by tauto), if_neg hs.2]
    rw [ih (acc ++ [s]) (fun x hx => hall x (by simp [hx]))]
    simp

theorem normSegs_plain (segs : List Str) (h : ∀ s ∈ segs, plainSeg s = true) :
    normSegs segs = segs := by
  have := normSegs_plainAux segs [] h
  simpa [normSegs] using this

theorem parseYearFromTitle_length {s y : Str}
    (h : parseYearFromTitle s = some y) : y.length = 4 := by
  simp only [parseYearFromTitle] at h
  split at h
  · split at h
    · cases h; rfl
    · cases h
  · cases h

theorem plainSeg_strm (s : Str) : plainSeg (s ++ lit ".strm") = true := by
  apply plainSeg_length
  simp [lit]

/-- C8: for every movie-category entry, a trailing `(YYYY)` in the
display name determines the year component regardless of the group
label: with `moviesByYear=true` the path is
`Movies/<year>/<title>.strm` with the captured year as its second
segment.  And the scenario: the single entry `Title (2023)` written from
an empty root produces `Movies/2023/Title (2023).strm` containing the
target reference plus one newline, with `written=1`. -/
theorem c8_movie_year_resolution :
    (∀ (attrs : List (Str × Str)) (dn : Str) (opts : RunOptions) (y : Str),
      (jsOr (toLowerStr (getAttrD attrs (lit "tvg-type")))
          (toLowerStr ((opts.defaultType).getD [])) = lit "movie" ∨
        jsOr (toLowerStr (getAttrD attrs (lit "tvg-type")))
          (toLowerStr ((opts.defaultType).getD [])) = lit "movies") →
      opts.moviesByYear = true →
      parseYearFromTitle dn = some y →
      decideOutputForEntry attrs dn opts =
        some [lit "Movies", y,
          jsOr (sanitizeSegment dn)
            (sanitizeSegment (jsOr (getAttrD attrs (lit "tvg-name"))
              (lit "Unknown Movie"))) ++ lit ".strm"]) ∧
    (runConvert c8opts movieLines (FTree.dir Forest.nil)).map
      (fun r => (r.written, r.ignored,
        lookupFile r.tree [lit "Movies", lit "2023", lit "Title (2023).strm"])) =
      some (1, 0, some (lit "http://example.com/stream\n")) := by
  constructor
  · intro attrs dn opts y hty hby hy
    have hyy : plainSeg y = true := by
      apply plainSeg_length
      rw [parseYearFromTitle_length hy]
      omega
    simp only [decideOutputForEntry]
    rcases hty with h | h <;> rw [h]
    · rw [if_neg (by decide), if_pos (Or.inl rfl), hby, if_pos rfl]
      simp only [hy]
      refine congrArg some (normSegs_plain _ ?_)
      intro s hs
      simp only [List.mem_cons, List.not_mem_nil, or_false] at hs
      rcases hs with rfl | rfl | rfl
      · decide
      · exact hyy
      · exact plainSeg_strm _
    · rw [if_neg (by decide), if_pos (Or.inr rfl), hby, if_pos rfl]
      simp only [hy]
      refine congrArg some (normSegs_plain _ ?_)
      intro s hs
      simp only [List.mem_cons, List.not_mem_nil, or_false] at hs
      rcases hs with rfl | rfl | rfl
      · decide
      · exact hyy
      · exact plainSeg_strm _
  · decide

theorem char_isDigit_bounds {c : Char} (h : c.isDigit = true) :
    48 ≤ c.toNat ∧ c.toNat ≤ 57 := by
  simp [Char.isDigit] at h
  exact h

theorem digitsToNat_foldl_lt :
    ∀ (s : Str) (a : Nat), (∀ c ∈ s, c.isDigit = true) →
      List.foldl (fun a c => a * 10 + (c.toNat - 48)) a s < (a + 1) * 10 ^ s.length := by
  intro s
  induction s with
  | nil => intro a _; simpa using Nat.lt_succ_self a
  | cons c rest ih =>
    intro a hall
    have hc := char_isDigit_bounds (hall c (by simp))
    have hd : c.toNat - 48 ≤ 9 := by omega
    have hrec := ih (a * 10 + (c.toNat - 48)) (fun d hd2 => hall d (by simp [hd2]))
    simp only [List.foldl_cons, List.length_cons]
    have hle : (a * 10 + (c.toNat - 48) + 1) * 10 ^ rest.length ≤
        (a + 1) * 10 ^ (rest.length + 1) := by
      rw [pow_succ]
      have h1 : a * 10 + (c.toNat - 48) + 1 ≤ (a + 1) * 10 := by omega
      calc (a * 10 + (c.toNat - 48) + 1) * 10 ^ rest.length
          ≤ ((a + 1) * 10) * 10 ^ rest.length := Nat.mul_le_mul_right _ h1
        _ = (a + 1) * (10 ^ rest.length * 10) := by ring
    exact Nat.lt_of_lt_of_le hrec hle

theorem digitsToNat_lt (s : Str) (h : ∀ c ∈ s, c.isDigit = true) :
    digitsToNat s < 10 ^ s.length := by
  have := digitsToNat_foldl_lt s 0 h
  simpa [digitsToNat] using this

set_option maxRecDepth 10000 in
set_option maxHeartbeats 1000000 in
theorem natToStr_clean_lt1000 :
    ∀ n, n < 1000 →
      ((natToStr n).all (fun c => !badChar c && !ctrlChar c && !jsWhitespace c)) = true := by
  decide

theorem parseIntPad2_clean {d : Str} (hlen : d.length ≤ 3)
    (hd : ∀ c ∈ d, c.isDigit = true) :
    ∀ c ∈ parseIntPad2 d,
      badChar c = false ∧ ctrlChar c = false ∧ jsWhitespace c = false := by
  have hval : digitsToNat d < 1000 := by
    have h1 := digitsToNat_lt d hd
    have h2 : 10 ^ d.length ≤ 10 ^ 3 := Nat.pow_le_pow_right (by omega) hlen
    omega
  have hstr := natToStr_clean_lt1000 (digitsToNat d) hval
  rw [List.all_eq_true] at hstr
  intro c hc
  simp only [parseIntPad2, pad2] at hc
  have hmem : c = '0' ∨ c ∈ natToStr (digitsToNat d) := by
    split at hc
    · rcases List.mem_append.mp hc with h1 | h1
      · exact Or.inl (List.eq_of_mem_replicate h1)
      · exact Or.inr h1
    · exact Or.inr hc
  rcases hmem with rfl | hmem
  · exact ⟨by decide, by decide, by decide⟩
  · have := hstr c hmem
    simp only [Bool.and_eq_true, Bool.not_eq_true'] at this
    exact ⟨this.1.1, this.1.2, this.2⟩

theorem matchSEHere_facts {eMax : Nat} {gap : Bool} {s sd ed after : Str}
    (h : matchSEHere eMax gap s = some (sd, ed, after)) :
    1 ≤ sd.length ∧ sd.length ≤ 2 ∧ 1 ≤ ed.length ∧ ed.length ≤ eMax ∧
    (∀ c ∈ sd, c.isDigit = true) ∧ (∀ c ∈ ed, c.isDigit = true) := by
  cases s with
  | nil => cases h
  | cons c rest =>
    simp only [matchSEHere] at h
    by_cases hS : (c = 'S' ∨ c = 's')
    · rw [if_pos hS] at h
      by_cases hlen : (rest.takeWhile Char.isDigit).length = 0 ∨
          2 < (rest.takeWhile Char.isDigit).length
      · rw [if_pos hlen] at h; cases h
      · rw [if_neg hlen] at h
        by_cases hgap : (gap = true ∧
            ((rest.dropWhile Char.isDigit).takeWhile jsWhitespace).length = 0)
        · rw [if_pos hgap] at h; cases h
        · rw [if_neg hgap] at h
          cases hr2 : (rest.dropWhile Char.isDigit).dropWhile jsWhitespace with
          | nil => rw [hr2] at h; cases h
          | cons e r3 =>
            rw [hr2] at h
            simp only [] at h
            by_cases hE : (e = 'E' ∨ e = 'e')
            · rw [if_pos hE] at h
              by_cases helen : (r3.takeWhile Char.isDigit).length = 0 ∨
                  eMax < (r3.takeWhile Char.isDigit).length
              · rw [if_pos helen] at h; cases h
              · rw [if_neg helen] at h
                push_neg at hlen helen
                have hfin : sd = rest.takeWhile Char.isDigit ∧
                    ed = r3.takeWhile Char.isDigit := by
                  cases hr4 : r3.dropWhile Char.isDigit with
                  | nil => rw [hr4] at h; cases h; exact ⟨rfl, rfl⟩
                  | cons d r5 =>
                    rw [hr4] at h
                    simp only [] at h
                    by_cases hw : isWordChar d = true
                    · rw [if_pos hw] at h; cases h
                    · rw [if_neg hw] at h; cases h; exact ⟨rfl, rfl⟩
                obtain ⟨rfl, rfl⟩ := hfin
                refine ⟨by omega, by omega, by omega, by omega, ?_, ?_⟩
                · exact fun c hc => List.mem_takeWhile_imp hc
                · exact fun c hc => List.mem_takeWhile_imp hc
            · rw [if_neg hE] at h; cases h
    · rw [if_neg hS] at h; cases h

theorem searchSE_facts {eMax : Nat} {gap : Bool} :
    ∀ (s : Str) (prev : Option Char) (b sd ed a : Str),
      searchSE eMax gap prev s = some (b, sd, ed, a) →
      1 ≤ sd.length ∧ sd.length ≤ 2 ∧ 1 ≤ ed.length ∧ ed.length ≤ eMax ∧
      (∀ c ∈ sd, c.isDigit = true) ∧ (∀ c ∈ ed, c.isDigit = true) := by
  intro s
  induction s with
  | nil => intro prev b sd ed a h; cases h
  | cons c rest ih =>
    intro prev b sd ed a h
    simp only [searchSE] at h
    have hcase : matchSEHere eMax gap (c :: rest) = some (sd, ed, a) ∨
        ∃ b2, searchSE eMax gap (some c) rest = some (b2, sd, ed, a) := by
      cases prev with
      | none =>
        simp only [if_true] at h
        cases hmm : matchSEHere eMax gap (c :: rest) with
        | some x =>
          rw [hmm] at h
          obtain ⟨sd0, ed0, a0⟩ := x
          simp only [] at h
          cases h
          exact Or.inl rfl
        | none =>
          rw [hmm] at h
          simp only [] at h
          cases hs : searchSE eMax gap (some c) rest with
          | none => rw [hs] at h; cases h
          | some y =>
            rw [hs] at h
            obtain ⟨b2, sd2, ed2, a2⟩ := y
            simp only [] at h
            cases h
            exact Or.inr ⟨b2, rfl⟩
      | some p =>
        simp only [] at h
        by_cases hw : isWordChar p = true
        · simp only [hw, Bool.not_true, Bool.false_eq_true, if_false] at h
          cases hs : searchSE eMax gap (some c) rest with
          | none => rw [hs] at h; cases h
          | some y =>
            rw [hs] at h
            obtain ⟨b2, sd2, ed2, a2⟩ := y
            simp only [] at h
            cases h
            exact Or.inr ⟨b2, rfl⟩
        · have hw2 : isWordChar p = false := by simpa using hw
          simp only [hw2, Bool.not_false, if_true] at h
          cases hmm : matchSEHere eMax gap (c :: rest) with
          | some x =>
            rw [hmm] at h
            obtain ⟨sd0, ed0, a0⟩ := x
            simp only [] at h
            cases h
            exact Or.inl rfl
          | none =>
            rw [hmm] at h
            simp only [] at h
            cases hs : searchSE eMax gap (some c) rest with
            | none => rw [hs] at h; cases h
            | some y =>
              rw [hs] at h
              obtain ⟨b2, sd2, ed2, a2⟩ := y
              simp only [] at h
              cases h
              exact Or.inr ⟨b2, rfl⟩
    rcases hcase with hmm | ⟨b2, hs⟩
    · exact matchSEHere_facts hmm
    · exact ih (some c) b2 sd ed a hs

theorem findSEm_facts {dn sd ed : Str} (h : findSEm dn = some (sd, ed)) :
    1 ≤ sd.length ∧ sd.length ≤ 2 ∧ 1 ≤ ed.length ∧ ed.length ≤ 3 ∧
    (∀ c ∈ sd, c.isDigit = true) ∧ (∀ c ∈ ed, c.isDigit = true) := by
  simp only [findSEm] at h
  cases h1 : searchSE 2 false none dn with
  | some x =>
    rw [h1] at h
    obtain ⟨b, sd0, ed0, a⟩ := x
    simp only [] at h
    cases h
    obtain ⟨f1, f2, f3, f4, f5, f6⟩ := searchSE_facts dn none b sd ed a h1
    exact ⟨f1, f2, f3, by omega, f5, f6⟩
  | none =>
    rw [h1] at h
    simp only [] at h
    cases h2 : searchSE 3 true none dn with
    | none => rw [h2] at h; cases h
    | some y =>
      rw [h2] at h
      obtain ⟨b, sd0, ed0, a⟩ := y
      simp only [] at h
      cases h
      exact searchSE_facts dn none b sd ed a h2

theorem collapseWSAux_nonws :
    ∀ (v : Str) (b : Bool), (∀ c ∈ v, jsWhitespace c = false) →
      collapseWSAux b v = v := by
  intro v
  induction v with
  | nil => intro b _; rfl
  | cons c rest ih =>
    intro b hall
    have hc := hall c (by simp)
    simp only [collapseWSAux, hc, Bool.false_eq_true, if_false]
    rw [ih false (fun d hd => hall d (by simp [hd]))]

theorem collapse_append_clean :
    ∀ (u : Str) (b : Bool) (v : Str), (∀ c ∈ v, jsWhitespace c = false) →
      ∃ q, collapseWSAux b (u ++ v) = q ++ v := by
  intro u
  induction u with
  | nil =>
    intro b v hv
    exact ⟨[], by simpa using collapseWSAux_nonws v b hv⟩
  | cons c u2 ih =>
    intro b v hv
    by_cases hc : jsWhitespace c = true
    · simp only [List.cons_append, collapseWSAux, hc, if_true]
      obtain ⟨q, hq⟩ := ih true v hv
      cases b with
      | true => exact ⟨q, by simpa using hq⟩
      | false =>
        refine ⟨' ' :: q, ?_⟩
        simp only [Bool.false_eq_true, if_false, List.cons_append]
        exact congrArg (' ' :: ·) hq
    · have hc2 : jsWhitespace c = false := by simpa using hc
      simp only [List.cons_append, collapseWSAux, hc2, Bool.false_eq_true, if_false]
      obtain ⟨q, hq⟩ := ih false v hv
      exact ⟨c :: q, by simp [hq]⟩

theorem dropWhile_append_nonws :
    ∀ (q v : Str), v ≠ [] → (∀ c ∈ v, jsWhitespace c = false) →
      ∃ q2, (q ++ v).dropWhile jsWhitespace = q2 ++ v := by
  intro q
  induction q with
  | nil =>
    intro v hne hv
    refine ⟨[], ?_⟩
    cases v with
    | nil => exact absurd rfl hne
    | cons a vr => simp [List.dropWhile, hv a (by simp)]
  | cons c q2 ih =>
    intro v hne hv
    by_cases hc : jsWhitespace c = true
    · simp only [List.cons_append, List.dropWhile, hc, if_true]
      exact ih v hne hv
    · have hc2 : jsWhitespace c = false := by simpa using hc
      exact ⟨c :: q2, by simp [List.dropWhile, hc2]⟩

theorem trimJS_append_clean :
    ∀ (q v : Str), v ≠ [] → (∀ c ∈ v, jsWhitespace c = false) →
      ∃ q2, trimJS (q ++ v) = q2 ++ v := by
  intro q v hne hv
  obtain ⟨q1, h1⟩ := dropWhile_append_nonws q v hne hv
  refine ⟨q1, ?_⟩
  unfold trimJS
  rw [h1, List.reverse_append]
  have hvr : v.reverse ≠ [] := by simpa using hne
  have hstay : (v.reverse ++ q1.reverse).dropWhile jsWhitespace =
      v.reverse ++ q1.reverse := by
    cases hv2 : v.reverse with
    | nil => exact absurd hv2 hvr
    | cons a vr =>
      have ha : jsWhitespace a = false := by
        apply hv
        rw [← List.mem_reverse, hv2]
        simp
      simp [List.dropWhile, ha]
  rw [hstay, List.reverse_append, List.reverse_reverse, List.reverse_reverse]

theorem sanitize_append_clean (u v : Str) (hne : v ≠ [])
    (hv : ∀ c ∈ v, badChar c = false ∧ ctrlChar c = false ∧ jsWhitespace c = false) :
    ∃ q, sanitizeSegment (u ++ v) = q ++ v := by
  unfold sanitizeSegment collapseWS
  have h1 : replaceClass badChar (u ++ v) = replaceClass badChar u ++ v := by
    simp only [replaceClass, List.map_append]
    rw [show List.map (fun c => if badChar c then ' ' else c) v = v from
      replaceClass_id badChar v (fun c hc => (hv c hc).1)]
  have h2 : replaceClass ctrlChar (replaceClass badChar u ++ v) =
      replaceClass ctrlChar (replaceClass badChar u) ++ v := by
    simp only [replaceClass, List.map_append]
    rw [show List.map (fun c => if ctrlChar c then ' ' else c) v = v from
      replaceClass_id ctrlChar v (fun c hc => (hv c hc).2.1)]
  rw [h1, h2]
  obtain ⟨q1, hq1⟩ := collapse_append_clean (replaceClass ctrlChar (replaceClass badChar u))
    false v (fun c hc => (hv c hc).2.2)
  rw [hq1]
  exact trimJS_append_clean q1 v hne (fun c hc => (hv c hc).2.2)

/-- C4 (amended): for a TV-category entry whose display name carries a
marker the code accepts (`findSEm`), with nonempty show base whose
sanitized form is a usable segment, the classifier produces
`TV Shows/<sanitized show>/Season <zero-padded season>/<sanitized
"<show> S<season>E<episode>">.strm`, and the file name ends with the
zero-padded `S..E..` tag.  (The claim's wider marker grammar fails: see
the counterexample.) -/
theorem c4_tv_marker_path (attrs : List (Str × Str)) (dn sb : Str)
    (opts : RunOptions) (sd ed : Str)
    (hty : jsOr (toLowerStr (getAttrD attrs (lit "tvg-type")))
      (toLowerStr ((opts.defaultType).getD [])) = lit "tvshows")
    (hm : findSEm dn = some (sd, ed))
    (hsb : (parseShowTitleAndEpisode dn
      (jsOr (getAttrD attrs (lit "group-title")) (lit "Unknown"))).showBase = sb)
    (hbase : sb ≠ [])
    (hsan : plainSeg (sanitizeSegment sb) = true) :
    decideOutputForEntry attrs dn opts =
      some [lit "TV Shows", sanitizeSegment sb,
        lit "Season " ++ parseIntPad2 sd,
        sanitizeSegment (sb ++ lit " " ++
          (lit "S" ++ parseIntPad2 sd ++ lit "E" ++ parseIntPad2 ed)) ++ lit ".strm"] ∧
    ((lit "S" ++ parseIntPad2 sd ++ lit "E" ++ parseIntPad2 ed) ++ lit ".strm").isSuffixOf
      (sanitizeSegment (sb ++ lit " " ++
        (lit "S" ++ parseIntPad2 sd ++ lit "E" ++ parseIntPad2 ed)) ++ lit ".strm") = true := by
  obtain ⟨hf1, hf2, hf3, hf4, hf5, hf6⟩ := findSEm_facts hm
  have hsclean := parseIntPad2_clean (show sd.length ≤ 3 by omega) hf5
  have heclean := parseIntPad2_clean (show ed.length ≤ 3 by omega) hf6
  have htagclean : ∀ c ∈ (lit "S" ++ parseIntPad2 sd ++ lit "E" ++ parseIntPad2 ed),
      badChar c = false ∧ ctrlChar c = false ∧ jsWhitespace c = false := by
    intro c hc
    simp only [List.append_assoc, List.mem_append] at hc
    rcases hc with hc | hc | hc | hc
    · have : c = 'S' := by simpa [lit] using hc
      subst this
      exact ⟨by decide, by decide, by decide⟩
    · exact hsclean c hc
    · have : c = 'E' := by simpa [lit] using hc
      subst this
      exact ⟨by decide, by decide, by decide⟩
    · exact heclean c hc
  have htagne : (lit "S" ++ parseIntPad2 sd ++ lit "E" ++ parseIntPad2 ed) ≠ [] := by
    simp [lit]
  obtain ⟨q, hq⟩ := sanitize_append_clean (sb ++ lit " ") _ htagne htagclean
  have hk : (parseShowTitleAndEpisode dn
      (jsOr (getAttrD attrs (lit "group-title")) (lit "Unknown"))).kodiEpisodeTag =
      some (lit "S" ++ parseIntPad2 sd ++ lit "E" ++ parseIntPad2 ed) := by
    simp [parseShowTitleAndEpisode, hm]
  have hs2 : (parseShowTitleAndEpisode dn
      (jsOr (getAttrD attrs (lit "group-title")) (lit "Unknown"))).season =
      some (parseIntPad2 sd) := by
    simp [parseShowTitleAndEpisode, hm]
  constructor
  · simp only [decideOutputForEntry]
    rw [hty, if_pos rfl]
    rw [if_neg (by simp [hk])]
    rw [if_neg (by simp [hsb, hbase, hs2, hk])]
    rw [hsb, hs2, hk]
    simp only [Option.getD_some]
    refine congrArg some (normSegs_plain _ ?_)
    intro s hs
    simp only [List.mem_cons, List.not_mem_nil, or_false] at hs
    rcases hs with rfl | rfl | rfl | rfl
    · decide
    · exact hsan
    · apply plainSeg_length
      have h7 : (lit "Season ").length = 7 := by decide
      rw [List.length_append, h7]
      omega
    · exact plainSeg_strm _
  · rw [show sb ++ lit " " ++ (lit "S" ++ parseIntPad2 sd ++ lit "E" ++ parseIntPad2 ed) =
      (sb ++ lit " ") ++ (lit "S" ++ parseIntPad2 sd ++ lit "E" ++ parseIntPad2 ed) from rfl]
    rw [hq]
    rw [List.isSuffixOf_iff_suffix]
    exact ⟨q, by simp [List.append_assoc]⟩

/-! Claim C3: reconciliation lemmas. -/

theorem lookupFile_dir_cons (cs : Forest) (m : Str) (p : FPath) :
    lookupFile (FTree.dir cs) (m :: p) =
      (match childNamed cs m with
       | some u => lookupFile u p
       | none => none) := by
  simp only [lookupFile, lookupT]
  cases childNamed cs m with
  | none => rfl
  | some u => rfl

theorem childNamed_cons_self (n : Str) (t : FTree) (rest : Forest) :
    childNamed (Forest.cons n t rest) n = some t := by
  simp [childNamed]

theorem childNamed_cons_ne {m n : Str} (t : FTree) (rest : Forest) (h : ¬m = n) :
    childNamed (Forest.cons n t rest) m = childNamed rest m := by
  simp only [childNamed]
  rw [if_neg (by simp; exact fun he => h he.symm)]

theorem childNamed_sweepF_noneAux (e : List FPath) :
    ∀ (N : Nat) (cs : Forest), sizeF cs ≤ N → ∀ (pfx : FPath) (n : Str),
      childNamed cs n = none → childNamed (sweepF e pfx cs).1 n = none := by
  intro N
  induction N with
  | zero =>
    intro cs hs pfx n hc
    cases cs with
    | nil => simpa [sweepF] using hc
    | cons a t rest => simp [sizeF] at hs
  | succ N ih =>
    intro cs hs pfx n hc
    cases cs with
    | nil => simpa [sweepF] using hc
    | cons a t rest =>
      simp only [sizeF] at hs
      have han : ¬n = a := by
        intro he
        subst he
        rw [childNamed_cons_self] at hc
        cases hc
      rw [childNamed_cons_ne t rest han] at hc
      simp only [sweepF]
      cases hse : (sweepEntry e pfx a t).1 with
      | none =>
        simp only [hse]
        exact ih rest (by omega) pfx n hc
      | some t2 =>
        simp only [hse]
        rw [childNamed_cons_ne t2 _ han]
        exact ih rest (by omega) pfx n hc

theorem staleAt_snoc (e : List FPath) (q : FPath) (n : Str) :
    staleAt e (q ++ [n]) = (isStrmName n && !(e.contains (q ++ [n]))) := by
  simp only [staleAt, List.getLast?_concat]

theorem sweepF_delete (e : List FPath) :
    ∀ (N : Nat) (cs : Forest), sizeF cs ≤ N → wfF cs = true →
      ∀ (pfx p : FPath) (c : Str), p ≠ [] →
        lookupFile (FTree.dir cs) p = some c →
        staleAt e (pfx ++ p) = true →
        lookupFile (FTree.dir (sweepF e pfx cs).1) p = none := by
  intro N
  induction N with
  | zero =>
    intro cs hs hwf pfx p c hne hlk hst
    cases cs with
    | nil =>
      cases p with
      | nil => exact absurd rfl hne
      | cons m p2 => rw [lookupFile_dir_cons] at hlk; simp [childNamed] at hlk
    | cons a t rest => simp [sizeF] at hs
  | succ N ih =>
    intro cs hs hwf pfx p c hne hlk hst
    cases cs with
    | nil =>
      cases p with
      | nil => exact absurd rfl hne
      | cons m p2 => rw [lookupFile_dir_cons] at hlk; simp [childNamed] at hlk
    | cons n t rest =>
      simp only [sizeF] at hs
      simp only [wfF, Bool.and_eq_true, Bool.not_eq_true'] at hwf
      obtain ⟨⟨hwfn, hwft⟩, hwfr⟩ := hwf
      have hwfn2 : childNamed rest n = none := by
        cases hcn : childNamed rest n with
        | none => rfl
        | some u => rw [hcn] at hwfn; cases hwfn
      cases p with
      | nil => exact absurd rfl hne
      | cons m p2 =>
        rw [lookupFile_dir_cons] at hlk
        by_cases hmn : m = n
        · subst hmn
          rw [childNamed_cons_self] at hlk
          simp only [] at hlk
          simp only [sweepF]
          cases t with
          | file content =>
            cases p2 with
            | cons x xs => simp [lookupFile, lookupT] at hlk
            | nil =>
              have hcond : (isStrmName m && !(e.contains (pfx ++ [m]))) = true := by
                rw [← staleAt_snoc]
                exact hst
              simp only [sweepEntry, hcond, if_true]
              rw [lookupFile_dir_cons,
                childNamed_sweepF_noneAux e (sizeF rest) rest (Nat.le_refl _) pfx m hwfn2]
          | dir cs2 =>
            cases p2 with
            | nil => simp [lookupFile, lookupT] at hlk
            | cons x xs =>
              simp only [sweepEntry]
              cases hnil : (sweepF e (pfx ++ [m]) cs2).1.isNil with
              | true =>
                simp only [hnil, if_true]
                rw [lookupFile_dir_cons,
                  childNamed_sweepF_noneAux e (sizeF rest) rest (Nat.le_refl _) pfx m hwfn2]
              | false =>
                simp only [hnil, Bool.false_eq_true, if_false]
                rw [lookupFile_dir_cons, childNamed_cons_self]
                simp only []
                have hszt : sizeT (FTree.dir cs2) = 1 + sizeF cs2 := rfl
                apply ih cs2 (by omega) hwft (pfx ++ [m]) (x :: xs) c (by simp) hlk
                rw [List.append_assoc]
                exact hst
        · rw [childNamed_cons_ne t rest hmn] at hlk
          simp only [sweepF]
          cases hse : (sweepEntry e pfx n t).1 with
          | none =>
            simp only [hse]
            apply ih rest (by omega) hwfr pfx (m :: p2) c hne _ hst
            rw [lookupFile_dir_cons]
            exact hlk
          | some t2 =>
            simp only [hse]
            rw [lookupFile_dir_cons, childNamed_cons_ne t2 _ hmn]
            have := ih rest (by omega) hwfr pfx (m :: p2) c hne (by rw [lookupFile_dir_cons]; exact hlk) hst
            rw [lookupFile_dir_cons] at this
            exact this

theorem sweepF_preserve (e : List FPath) :
    ∀ (N : Nat) (cs : Forest), sizeF cs ≤ N →
      ∀ (pfx p : FPath) (c : Str), p ≠ [] →
        lookupFile (FTree.dir cs) p = some c →
        staleAt e (pfx ++ p) = false →
        lookupFile (FTree.dir (sweepF e pfx cs).1) p = some c := by
  intro N
  induction N with
  | zero =>
    intro cs hs pfx p c hne hlk hst
    cases cs with
    | nil =>
      cases p with
      | nil => exact absurd rfl hne
      | cons m p2 => rw [lookupFile_dir_cons] at hlk; simp [childNamed] at hlk
    | cons a t rest => simp [sizeF] at hs
  | succ N ih =>
    intro cs hs pfx p c hne hlk hst
    cases cs with
    | nil =>
      cases p with
      | nil => exact absurd rfl hne
      | cons m p2 => rw [lookupFile_dir_cons] at hlk; simp [childNamed] at hlk
    | cons n t rest =>
      simp only [sizeF] at hs
      cases p with
      | nil => exact absurd rfl hne
      | cons m p2 =>
        rw [lookupFile_dir_cons] at hlk
        by_cases hmn : m = n
        · subst hmn
          rw [childNamed_cons_self] at hlk
          simp only [] at hlk
          simp only [sweepF]
          cases t with
          | file content =>
            cases p2 with
            | cons x xs => simp [lookupFile, lookupT] at hlk
            | nil =>
              have hcond : (isStrmName m && !(e.contains (pfx ++ [m]))) = false := by
                rw [← staleAt_snoc]
                exact hst
              simp only [sweepEntry, hcond, Bool.false_eq_true, if_false]
              rw [lookupFile_dir_cons, childNamed_cons_self]
              exact hlk
          | dir cs2 =>
            cases p2 with
            | nil => simp [lookupFile, lookupT] at hlk
            | cons x xs =>
              simp only [sweepEntry]
              have hszt : sizeT (FTree.dir cs2) = 1 + sizeF cs2 := rfl
              have hinner : lookupFile (FTree.dir (sweepF e (pfx ++ [m]) cs2).1)
                  (x :: xs) = some c := by
                apply ih cs2 (by omega) (pfx ++ [m]) (x :: xs) c (by simp) hlk
                rw [List.append_assoc]
                exact hst
              cases hnil : (sweepF e (pfx ++ [m]) cs2).1.isNil with
              | true =>
                have : (sweepF e (pfx ++ [m]) cs2).1 = Forest.nil := by
                  cases hcs : (sweepF e (pfx ++ [m]) cs2).1 with
                  | nil => rfl
                  | cons a u r2 => rw [hcs] at hnil; cases hnil
                rw [this] at hinner
                rw [lookupFile_dir_cons] at hinner
                simp [childNamed] at hinner
              | false =>
                simp only [hnil, Bool.false_eq_true, if_false]
                rw [lookupFile_dir_cons, childNamed_cons_self]
                exact hinner
        · rw [childNamed_cons_ne t rest hmn] at hlk
          simp only [sweepF]
          have hrest := ih rest (by omega) pfx (m :: p2) c hne
            (by rw [lookupFile_dir_cons]; exact hlk) hst
          rw [lookupFile_dir_cons] at hrest
          cases hse : (sweepEntry e pfx n t).1 with
          | none =>
            simp only [hse]
            rw [lookupFile_dir_cons]
            exact hrest
          | some t2 =>
            simp only [hse]
            rw [lookupFile_dir_cons, childNamed_cons_ne t2 _ hmn]
            exact hrest

theorem sweepF_noEmpty (e : List FPath) :
    ∀ (N : Nat) (cs : Forest), sizeF cs ≤ N →
      ∀ (pfx p : FPath) (ds : Forest), p ≠ [] →
        lookupT (FTree.dir (sweepF e pfx cs).1) p = some (FTree.dir ds) →
        ds.isNil = false := by
  intro N
  induction N with
  | zero =>
    intro cs hs pfx p ds hne hlk
    cases cs with
    | nil =>
      cases p with
      | nil => exact absurd rfl hne
      | cons m p2 => simp [sweepF, lookupT, childNamed] at hlk
    | cons a t rest => simp [sizeF] at hs
  | succ N ih =>
    intro cs hs pfx p ds hne hlk
    cases cs with
    | nil =>
      cases p with
      | nil => exact absurd rfl hne
      | cons m p2 => simp [sweepF, lookupT, childNamed] at hlk
    | cons n t rest =>
      simp only [sizeF] at hs
      cases p with
      | nil => exact absurd rfl hne
      | cons m p2 =>
        simp only [sweepF] at hlk
        cases t with
        | file content =>
          simp only [sweepEntry] at hlk
          cases hcond : (isStrmName n && !(e.contains (pfx ++ [n]))) with
          | true =>
            rw [hcond] at hlk
            simp only [if_true] at hlk
            exact ih rest (by omega) pfx (m :: p2) ds hne hlk
          | false =>
            rw [hcond] at hlk
            simp only [Bool.false_eq_true, if_false] at hlk
            by_cases hmn : m = n
            · subst hmn
              rw [show lookupT (FTree.dir (Forest.cons m (FTree.file content)
                  (sweepF e pfx rest).1)) (m :: p2) = lookupT (FTree.file content) p2 by
                simp [lookupT, childNamed_cons_self]] at hlk
              cases p2 with
              | nil => cases hlk
              | cons x xs => cases hlk
            · rw [show lookupT (FTree.dir (Forest.cons n (FTree.file content)
                  (sweepF e pfx rest).1)) (m :: p2) =
                  lookupT (FTree.dir (sweepF e pfx rest).1) (m :: p2) by
                simp only [lookupT, childNamed_cons_ne _ _ hmn]] at hlk
              exact ih rest (by omega) pfx (m :: p2) ds hne hlk
        | dir cs2 =>
          simp only [sweepEntry] at hlk
          have hszt : sizeT (FTree.dir cs2) = 1 + sizeF cs2 := rfl
          cases hnil : (sweepF e (pfx ++ [n]) cs2).1.isNil with
          | true =>
            rw [hnil] at hlk
            simp only [if_true] at hlk
            exact ih rest (by omega) pfx (m :: p2) ds hne hlk
          | false =>
            rw [hnil] at hlk
            simp only [Bool.false_eq_true, if_false] at hlk
            by_cases hmn : m = n
            · subst hmn
              rw [show lookupT (FTree.dir (Forest.cons m
                  (FTree.dir (sweepF e (pfx ++ [m]) cs2).1) (sweepF e pfx rest).1))
                  (m :: p2) =
                  lookupT (FTree.dir (sweepF e (pfx ++ [m]) cs2).1) p2 by
                simp [lookupT, childNamed_cons_self]] at hlk
              cases p2 with
              | nil =>
                cases hlk
                exact hnil
              | cons x xs =>
                exact ih cs2 (by omega) (pfx ++ [m]) (x :: xs) ds (by simp) hlk
            · rw [show lookupT (FTree.dir (Forest.cons n
                  (FTree.dir (sweepF e (pfx ++ [n]) cs2).1) (sweepF e pfx rest).1))
                  (m :: p2) =
                  lookupT (FTree.dir (sweepF e pfx rest).1) (m :: p2) by
                simp only [lookupT, childNamed_cons_ne _ _ hmn]] at hlk
              exact ih rest (by omega) pfx (m :: p2) ds hne hlk

theorem sweepF_count (e : List FPath) :
    ∀ (N : Nat) (cs : Forest), sizeF cs ≤ N → ∀ (pfx : FPath),
      (sweepF e pfx cs).2 = countStaleF e pfx cs := by
  intro N
  induction N with
  | zero =>
    intro cs hs pfx
    cases cs with
    | nil => rfl
    | cons a t rest => simp [sizeF] at hs
  | succ N ih =>
    intro cs hs pfx
    cases cs with
    | nil => rfl
    | cons n t rest =>
      simp only [sizeF] at hs
      simp only [sweepF, countStaleF]
      cases t with
      | file content =>
        simp only [sweepEntry, countStaleT]
        cases hcond : (isStrmName n && !(e.contains (pfx ++ [n]))) with
        | true =>
          simp only [if_true]
          rw [ih rest (by omega) pfx]
        | false =>
          simp only [Bool.false_eq_true, if_false]
          rw [ih rest (by omega) pfx]
      | dir cs2 =>
        simp only [sweepEntry, countStaleT]
        have hszt : sizeT (FTree.dir cs2) = 1 + sizeF cs2 := rfl
        cases hnil : (sweepF e (pfx ++ [n]) cs2).1.isNil with
        | true =>
          simp only [if_true]
          rw [ih rest (by omega) pfx, ih cs2 (by omega) (pfx ++ [n])]
        | false =>
          simp only [Bool.false_eq_true, if_false]
          rw [ih rest (by omega) pfx, ih cs2 (by omega) (pfx ++ [n])]

theorem wfF_child :
    ∀ (N : Nat) (cs : Forest), sizeF cs ≤ N → wfF cs = true →
      ∀ (n : Str) (u : FTree), childNamed cs n = some u → wfT u = true := by
  intro N
  induction N with
  | zero =>
    intro cs hs hwf n u hc
    cases cs with
    | nil => simp [childNamed] at hc
    | cons a t rest => simp [sizeF] at hs
  | succ N ih =>
    intro cs hs hwf n u hc
    cases cs with
    | nil => simp [childNamed] at hc
    | cons a t rest =>
      simp only [sizeF] at hs
      simp only [wfF, Bool.and_eq_true] at hwf
      by_cases han : n = a
      · subst han
        rw [childNamed_cons_self] at hc
        cases hc
        exact hwf.1.2
      · rw [childNamed_cons_ne t rest han] at hc
        exact ih rest (by omega) hwf.2 n u hc

theorem reconcileRoot_other (e : List FPath) (acc : Forest × Nat) (r m : Str)
    (h : ¬m = r) :
    childNamed (reconcileRoot e acc r).1 m = childNamed acc.1 m := by
  simp only [reconcileRoot]
  cases hcr : childNamed acc.1 r with
  | none => rfl
  | some u =>
    cases u with
    | file c => rfl
    | dir rcs =>
      simp only []
      rw [childNamed_setChild, if_neg h]

theorem reconcileRoot_self (e : List FPath) (acc : Forest × Nat) (r : Str) :
    childNamed (reconcileRoot e acc r).1 r =
      (match childNamed acc.1 r with
       | some (FTree.dir rcs) => some (FTree.dir (sweepF e [r] rcs).1)
       | other => other) := by
  simp only [reconcileRoot]
  cases hcr : childNamed acc.1 r with
  | none => simp [hcr]
  | some u =>
    cases u with
    | file c => simp [hcr]
    | dir rcs =>
      simp only [hcr]
      rw [childNamed_setChild, if_pos rfl]

theorem reconcileRoot_count (e : List FPath) (acc : Forest × Nat) (r : Str) :
    (reconcileRoot e acc r).2 =
      acc.2 + (match childNamed acc.1 r with
               | some (FTree.dir rcs) => countStaleF e [r] rcs
               | _ => 0) := by
  simp only [reconcileRoot]
  cases hcr : childNamed acc.1 r with
  | none => simp [hcr]
  | some u =>
    cases u with
    | file c => simp [hcr]
    | dir rcs =>
      simp only [hcr]
      rw [sweepF_count e (sizeF rcs) rcs (Nat.le_refl _) [r]]

theorem reconcile_dir_char (e : List FPath) (cs : Forest) :
    (∀ m, (∀ r ∈ rootNames, ¬m = r) →
      childNamed ((rootNames.foldl (reconcileRoot e) (cs, 0)).1) m =
        childNamed cs m) ∧
    (∀ r, r ∈ rootNames →
      childNamed ((rootNames.foldl (reconcileRoot e) (cs, 0)).1) r =
        (match childNamed cs r with
         | some (FTree.dir rcs) => some (FTree.dir (sweepF e [r] rcs).1)
         | other => other)) ∧
    (rootNames.foldl (reconcileRoot e) (cs, 0)).2 = countStaleRoots e cs := by
  simp only [rootNames, List.foldl]
  refine ⟨?_, ?_, ?_⟩
  · intro m hm
    have h1 := hm (lit "TV Shows") (by simp [rootNames])
    have h2 := hm (lit "Movies") (by simp [rootNames])
    have h3 := hm (lit "Live") (by simp [rootNames])
    rw [reconcileRoot_other e _ _ _ h3, reconcileRoot_other e _ _ _ h2,
      reconcileRoot_other e _ _ _ h1]
  · intro r hr
    simp only [rootNames, List.mem_cons, List.not_mem_nil, or_false] at hr
    rcases hr with rfl | rfl | rfl
    · rw [reconcileRoot_other e _ _ _ (by decide), reconcileRoot_other e _ _ _ (by decide),
        reconcileRoot_self]
    · rw [reconcileRoot_other e _ _ _ (by decide), reconcileRoot_self,
        reconcileRoot_other e _ _ _ (by decide)]
    · rw [reconcileRoot_self, reconcileRoot_other e _ _ _ (by decide),
        reconcileRoot_other e _ _ _ (by decide)]
  · rw [reconcileRoot_count, reconcileRoot_count, reconcileRoot_count]
    rw [reconcileRoot_other e _ _ _ (by decide), reconcileRoot_other e _ _ _ (by decide),
      reconcileRoot_other e _ _ _ (by decide)]
    simp only [countStaleRoots, rootNames, List.foldl]

theorem reconcile_spec (e : List FPath) (cs : Forest) (hwf : wfF cs = true) :
    ReconcileSpec e cs (reconcile e (FTree.dir cs)).1 (reconcile e (FTree.dir cs)).2 := by
  obtain ⟨hother, hself, hcount⟩ := reconcile_dir_char e cs
  show ReconcileSpec e cs
    (FTree.dir (rootNames.foldl (reconcileRoot e) (cs, 0)).1)
    ((rootNames.foldl (reconcileRoot e) (cs, 0)).2)
  simp only [ReconcileSpec]
  refine ⟨?_, ?_, ?_, ?_, ?_, ?_, hcount⟩
  · intro r p c hr hne hlk hst
    rw [lookupFile_dir_cons] at hlk
    rw [lookupFile_dir_cons, hself r hr]
    cases hcr : childNamed cs r with
    | none =>
      rw [hcr] at hlk
    | some u =>
      rw [hcr] at hlk
      cases u with
      | file c0 =>
        simp only [] at hlk
        cases p with
        | nil => exact absurd rfl hne
        | cons x xs => simp [lookupFile, lookupT] at hlk
      | dir rcs =>
        simp only [] at hlk ⊢
        have hwfr : wfF rcs = true :=
          wfF_child (sizeF cs) cs (Nat.le_refl _) hwf r (FTree.dir rcs) hcr
        exact sweepF_delete e (sizeF rcs) rcs (Nat.le_refl _) hwfr [r] p c hne hlk hst
  · intro r p c hr hne hlk hst
    rw [lookupFile_dir_cons] at hlk
    rw [lookupFile_dir_cons, hself r hr]
    cases hcr : childNamed cs r with
    | none =>
      rw [hcr] at hlk
      simp only [] at hlk
      exact Option.noConfusion hlk
    | some u =>
      rw [hcr] at hlk
      cases u with
      | file c0 =>
        simp only [] at hlk
        cases p with
        | nil => exact absurd rfl hne
        | cons x xs => simp [lookupFile, lookupT] at hlk
      | dir rcs =>
        simp only [] at hlk ⊢
        exact sweepF_preserve e (sizeF rcs) rcs (Nat.le_refl _) [r] p c hne hlk hst
  · intro r c hr hlk
    rw [lookupFile_dir_cons] at hlk
    rw [lookupFile_dir_cons, hself r hr]
    cases hcr : childNamed cs r with
    | none =>
      rw [hcr] at hlk
      simp only [] at hlk
      exact Option.noConfusion hlk
    | some u =>
      rw [hcr] at hlk
      cases u with
      | file c0 =>
        simp only [] at hlk ⊢
        exact hlk
      | dir rcs =>
        simp only [] at hlk
        simp [lookupFile, lookupT] at hlk
  · intro p c hnr
    cases p with
    | nil => simp [lookupFile, lookupT]
    | cons m p2 =>
      have hm : ∀ r ∈ rootNames, ¬m = r := by
        intro r hr he
        exact hnr r hr (by simp [he])
      rw [lookupFile_dir_cons, lookupFile_dir_cons, hother m hm]
  · intro r p ds hr hne hlk
    simp only [lookupT] at hlk
    rw [hself r hr] at hlk
    cases hcr : childNamed cs r with
    | none =>
      rw [hcr] at hlk
      simp only [] at hlk
      exact Option.noConfusion hlk
    | some u =>
      rw [hcr] at hlk
      cases u with
      | file c0 =>
        simp only [] at hlk
        cases p with
        | nil => exact absurd rfl hne
        | cons x xs => simp [lookupT] at hlk
      | dir rcs =>
        simp only [] at hlk
        exact sweepF_noEmpty e (sizeF rcs) rcs (Nat.le_refl _) [r] p ds hne hlk
  · intro r hr hdir
    simp only [isDirAt, lookupT] at hdir ⊢
    rw [hself r hr]
    cases hcr : childNamed cs r with
    | none =>
      rw [hcr] at hdir
      simp only [] at hdir
      exact absurd hdir (by simp)
    | some u =>
      rw [hcr] at hdir
      cases u with
      | file c0 =>
        simp only [] at hdir
        exact absurd hdir (by simp)
      | dir rcs =>
        simp only []

/-- C3 (corrected): with `deleteMissing=true`, whenever the line loop
completes with a directory output root whose sibling names are distinct
(as in any real directory tree), the run finishes by applying the
reconciliation pass to it, and that pass satisfies the amended contract:
every stale `.strm` file under the three category roots is deleted and
counted, every other file keeps its exact content, nothing outside the
roots changes, no directory strictly below a root is left empty, and the
category roots themselves are never removed — the claim's original
"including the category roots themselves when emptied" clause is refuted
separately by `c3_counterexample_root_not_pruned`. -/
theorem c3_deleteMissing_reconciles (opts : RunOptions) (lines : List Str)
    (t0 : FTree) (st : RunState) (cs : Forest)
    (hdel : opts.deleteMissing = true)
    (hrun : runLines opts (initState t0) lines = some st)
    (hcs : st.tree = FTree.dir cs)
    (hwf : wfF cs = true) :
    runConvert opts lines t0 = some { st with tree := (reconcile st.expected (FTree.dir cs)).1, deleted := st.deleted + (reconcile st.expected (FTree.dir cs)).2 } ∧
    ReconcileSpec st.expected cs (reconcile st.expected (FTree.dir cs)).1
      (reconcile st.expected (FTree.dir cs)).2 := by
  constructor
  · simp only [runConvert, hrun, hdel, if_true, hcs]
  · exact reconcile_spec st.expected cs hwf

theorem c3_deleteMissing_reconciles_witness :
    runConvert c3opts movieLines treeWithOld = some { c3wSt with tree := (reconcile c3wSt.expected (FTree.dir c3wCs)).1, deleted := c3wSt.deleted + (reconcile c3wSt.expected (FTree.dir c3wCs)).2 } ∧
    ReconcileSpec c3wSt.expected c3wCs (reconcile c3wSt.expected (FTree.dir c3wCs)).1
      (reconcile c3wSt.expected (FTree.dir c3wCs)).2 :=
  c3_deleteMissing_reconciles c3opts movieLines treeWithOld c3wSt c3wCs rfl rfl rfl
    (by decide)

theorem c4_tv_marker_path_witness :
    decideOutputForEntry [(lit "tvg-type", lit "tvshows")] (lit "Show S01E02") c8opts =
      some [lit "TV Shows", sanitizeSegment (lit "Show"),
        lit "Season " ++ parseIntPad2 (lit "01"),
        sanitizeSegment (lit "Show" ++ lit " " ++
          (lit "S" ++ parseIntPad2 (lit "01") ++ lit "E" ++ parseIntPad2 (lit "02"))) ++ lit ".strm"] ∧
    ((lit "S" ++ parseIntPad2 (lit "01") ++ lit "E" ++ parseIntPad2 (lit "02")) ++ lit ".strm").isSuffixOf
      (sanitizeSegment (lit "Show" ++ lit " " ++
        (lit "S" ++ parseIntPad2 (lit "01") ++ lit "E" ++ parseIntPad2 (lit "02"))) ++ lit ".strm") = true :=
  c4_tv_marker_path [(lit "tvg-type", lit "tvshows")] (lit "Show S01E02") (lit "Show")
    c8opts (lit "01") (lit "02") (by decide) (by decide) (by decide) (by decide) (by decide)

theorem c8_movie_year_resolution_witness :
    decideOutputForEntry [(lit "tvg-type", lit "movie"), (lit "group-title", lit "Movies 1999")]
        (lit "Title (2023)") c8opts =
      some [lit "Movies", lit "2023",
        jsOr (sanitizeSegment (lit "Title (2023)"))
          (sanitizeSegment (jsOr (getAttrD [(lit "tvg-type", lit "movie"), (lit "group-title", lit "Movies 1999")] (lit "tvg-name"))
            (lit "Unknown Movie"))) ++ lit ".strm"] :=
  c8_movie_year_resolution.1 [(lit "tvg-type", lit "movie"), (lit "group-title", lit "Movies 1999")]
    (lit "Title (2023)") c8opts (lit "2023") (Or.inl (by decide)) rfl (by decide)
